import Mathlib

set_option maxRecDepth 8000

/-- Characters Python treats as word characters (regex `\w`) in the
regexes of the notebook, restricted to the alphabet this model covers: ASCII
alphanumerics, the underscore, and the one non-ASCII letter the source
handles, `é`.  Unicode word characters outside this alphabet are not
modelled: the model turns them into spaces at rule 1 while Python keeps
them until rule 6 strips them, which yields the same cleaner output. -/
def wchar (c : Char) : Bool := c.isAlphanum || c == '_' || c == 'é'

/-- ASCII whitespace: Python regex `\s` and `str.strip` on the modelled
alphabet. -/
def wspace (c : Char) : Bool :=
  c == ' ' || c == '\t' || c == '\n' || c == '\r' || c == '\x0b' || c == '\x0c'

/-- The single space character, as a predicate (the class of the final
space-collapsing regex). -/
def spc (c : Char) : Bool := c == ' '

/-- Rule 1 of the cleaner, `re.sub("(\W| +)", " ", s)`: the alternation
matches every single non-word character (a single space already matches
`\W`, so the `" +"` branch never fires), so the substitution maps each
non-word character to one space. -/
def toSp (c : Char) : Char := if wchar c then c else ' '

/-- `re.sub` with a pattern `P+` and replacement a single space: every
maximal run of characters satisfying `p` is replaced by one `' '`. -/
def collapseRuns (p : Char → Bool) : List Char → List Char
  | [] => []
  | [c] => if p c then [' '] else [c]
  | c :: d :: cs =>
    if p c && p d then collapseRuns p (d :: cs)
    else (if p c then ' ' else c) :: collapseRuns p (d :: cs)

-- Split a list into its maximal runs of characters not satisfying `p`
-- (the tokens), dropping the separators.  `wordsB` carries the token
-- being accumulated.
mutual
def wordsA (p : Char → Bool) : List Char → List (List Char)
  | [] => []
  | c :: cs => if p c then wordsA p cs else wordsB p [c] cs
def wordsB (p : Char → Bool) (acc : List Char) : List Char → List (List Char)
  | [] => [acc]
  | c :: cs => if p c then acc :: wordsA p cs else wordsB p (acc ++ [c]) cs
end

/-- Join tokens with single spaces. -/
def unwords : List (List Char) → List Char
  | [] => []
  | [t] => t
  | t :: ts => t ++ ' ' :: unwords ts

-- `re.sub(r"\b\d+\b", "", s)`: a match is a maximal digit run whose
-- left and right neighbours (if any) are non-word characters; the word
-- boundaries are evaluated against the original string, so scanning is a
-- left-to-right pass keeping the wordness of the previous character as state.
-- `remNumsB` holds a candidate digit run whose right boundary is still
-- unknown.
mutual
def remNumsA : Bool → List Char → List Char
  | _, [] => []
  | prevW, c :: cs =>
    if c.isDigit && !prevW then remNumsB [c] cs
    else c :: remNumsA (wchar c) cs
def remNumsB (run : List Char) : List Char → List Char
  | [] => []
  | c :: cs =>
    if c.isDigit then remNumsB (run ++ [c]) cs
    else if wchar c then run ++ c :: remNumsA (wchar c) cs
    else c :: remNumsA (wchar c) cs
end

/-- Rule 3 of the cleaner: remove standalone numeric tokens. -/
def remNums (l : List Char) : List Char := remNumsA false l

-- The short-token regex (word-boundary, one or two word characters,
-- word-boundary) with empty replacement: a match is a maximal word-character
-- run of length 1 or 2 (a longer run has no inner word boundary, so it
-- cannot match).  `remShortB` holds a pending run of at most two word
-- characters; reaching a third character flushes the run as kept.
mutual
def remShortA : Bool → List Char → List Char
  | _, [] => []
  | prevW, c :: cs =>
    if wchar c && !prevW then remShortB [c] cs
    else c :: remShortA (wchar c) cs
def remShortB (run : List Char) : List Char → List Char
  | [] => []
  | c :: cs =>
    if wchar c then
      if run.length == 2 then run ++ c :: remShortA true cs
      else remShortB (run ++ [c]) cs
    else c :: remShortA (wchar c) cs
end

/-- Rule 7 of the cleaner: remove tokens of one or two characters. -/
def remShort (l : List Char) : List Char := remShortA false l

theorem smoke6 : remNums ['1','2',' ','3','4','a'] = [' ','3','4','a'] := by decide

theorem smoke7 : remShort ['a','b',' ','c','d','e',' ','f'] = [' ','c','d','e',' '] := by decide
/-- The apostrophe character (code 39), written via its code point. -/
def apoc : Char := Char.ofNat 39

/-- The fixed English stopword list of `nltk.corpus.stopwords.words` in
its list order; the order is the alternation order of the regex
`\\b(w1|w2|...)\\b\\s*` the cleaner builds from it. -/
def stopwords : List (List Char) :=
  [['i'], ['m', 'e'], ['m', 'y'],
   ['m', 'y', 's', 'e', 'l', 'f'], ['w', 'e'], ['o', 'u', 'r'],
   ['o', 'u', 'r', 's'], ['o', 'u', 'r', 's', 'e', 'l', 'v', 'e', 's'], ['y', 'o', 'u'],
   ['y', 'o', 'u', apoc, 'r', 'e'], ['y', 'o', 'u', apoc, 'v', 'e'], ['y', 'o', 'u', apoc, 'l', 'l'],
   ['y', 'o', 'u', apoc, 'd'], ['y', 'o', 'u', 'r'], ['y', 'o', 'u', 'r', 's'],
   ['y', 'o', 'u', 'r', 's', 'e', 'l', 'f'], ['y', 'o', 'u', 'r', 's', 'e', 'l', 'v', 'e', 's'], ['h', 'e'],
   ['h', 'i', 'm'], ['h', 'i', 's'], ['h', 'i', 'm', 's', 'e', 'l', 'f'],
   ['s', 'h', 'e'], ['s', 'h', 'e', apoc, 's'], ['h', 'e', 'r'],
   ['h', 'e', 'r', 's'], ['h', 'e', 'r', 's', 'e', 'l', 'f'], ['i', 't'],
   ['i', 't', apoc, 's'], ['i', 't', 's'], ['i', 't', 's', 'e', 'l', 'f'],
   ['t', 'h', 'e', 'y'], ['t', 'h', 'e', 'm'], ['t', 'h', 'e', 'i', 'r'],
   ['t', 'h', 'e', 'i', 'r', 's'], ['t', 'h', 'e', 'm', 's', 'e', 'l', 'v', 'e', 's'], ['w', 'h', 'a', 't'],
   ['w', 'h', 'i', 'c', 'h'], ['w', 'h', 'o'], ['w', 'h', 'o', 'm'],
   ['t', 'h', 'i', 's'], ['t', 'h', 'a', 't'], ['t', 'h', 'a', 't', apoc, 'l', 'l'],
   ['t', 'h', 'e', 's', 'e'], ['t', 'h', 'o', 's', 'e'], ['a', 'm'],
   ['i', 's'], ['a', 'r', 'e'], ['w', 'a', 's'],
   ['w', 'e', 'r', 'e'], ['b', 'e'], ['b', 'e', 'e', 'n'],
   ['b', 'e', 'i', 'n', 'g'], ['h', 'a', 'v', 'e'], ['h', 'a', 's'],
   ['h', 'a', 'd'], ['h', 'a', 'v', 'i', 'n', 'g'], ['d', 'o'],
   ['d', 'o', 'e', 's'], ['d', 'i', 'd'], ['d', 'o', 'i', 'n', 'g'],
   ['a'], ['a', 'n'], ['t', 'h', 'e'],
   ['a', 'n', 'd'], ['b', 'u', 't'], ['i', 'f'],
   ['o', 'r'], ['b', 'e', 'c', 'a', 'u', 's', 'e'], ['a', 's'],
   ['u', 'n', 't', 'i', 'l'], ['w', 'h', 'i', 'l', 'e'], ['o', 'f'],
   ['a', 't'], ['b', 'y'], ['f', 'o', 'r'],
   ['w', 'i', 't', 'h'], ['a', 'b', 'o', 'u', 't'], ['a', 'g', 'a', 'i', 'n', 's', 't'],
   ['b', 'e', 't', 'w', 'e', 'e', 'n'], ['i', 'n', 't', 'o'], ['t', 'h', 'r', 'o', 'u', 'g', 'h'],
   ['d', 'u', 'r', 'i', 'n', 'g'], ['b', 'e', 'f', 'o', 'r', 'e'], ['a', 'f', 't', 'e', 'r'],
   ['a', 'b', 'o', 'v', 'e'], ['b', 'e', 'l', 'o', 'w'], ['t', 'o'],
   ['f', 'r', 'o', 'm'], ['u', 'p'], ['d', 'o', 'w', 'n'],
   ['i', 'n'], ['o', 'u', 't'], ['o', 'n'],
   ['o', 'f', 'f'], ['o', 'v', 'e', 'r'], ['u', 'n', 'd', 'e', 'r'],
   ['a', 'g', 'a', 'i', 'n'], ['f', 'u', 'r', 't', 'h', 'e', 'r'], ['t', 'h', 'e', 'n'],
   ['o', 'n', 'c', 'e'], ['h', 'e', 'r', 'e'], ['t', 'h', 'e', 'r', 'e'],
   ['w', 'h', 'e', 'n'], ['w', 'h', 'e', 'r', 'e'], ['w', 'h', 'y'],
   ['h', 'o', 'w'], ['a', 'l', 'l'], ['a', 'n', 'y'],
   ['b', 'o', 't', 'h'], ['e', 'a', 'c', 'h'], ['f', 'e', 'w'],
   ['m', 'o', 'r', 'e'], ['m', 'o', 's', 't'], ['o', 't', 'h', 'e', 'r'],
   ['s', 'o', 'm', 'e'], ['s', 'u', 'c', 'h'], ['n', 'o'],
   ['n', 'o', 'r'], ['n', 'o', 't'], ['o', 'n', 'l', 'y'],
   ['o', 'w', 'n'], ['s', 'a', 'm', 'e'], ['s', 'o'],
   ['t', 'h', 'a', 'n'], ['t', 'o', 'o'], ['v', 'e', 'r', 'y'],
   ['s'], ['t'], ['c', 'a', 'n'],
   ['w', 'i', 'l', 'l'], ['j', 'u', 's', 't'], ['d', 'o', 'n'],
   ['d', 'o', 'n', apoc, 't'], ['s', 'h', 'o', 'u', 'l', 'd'], ['s', 'h', 'o', 'u', 'l', 'd', apoc, 'v', 'e'],
   ['n', 'o', 'w'], ['d'], ['l', 'l'],
   ['m'], ['o'], ['r', 'e'],
   ['v', 'e'], ['y'], ['a', 'i', 'n'],
   ['a', 'r', 'e', 'n'], ['a', 'r', 'e', 'n', apoc, 't'], ['c', 'o', 'u', 'l', 'd', 'n'],
   ['c', 'o', 'u', 'l', 'd', 'n', apoc, 't'], ['d', 'i', 'd', 'n'], ['d', 'i', 'd', 'n', apoc, 't'],
   ['d', 'o', 'e', 's', 'n'], ['d', 'o', 'e', 's', 'n', apoc, 't'], ['h', 'a', 'd', 'n'],
   ['h', 'a', 'd', 'n', apoc, 't'], ['h', 'a', 's', 'n'], ['h', 'a', 's', 'n', apoc, 't'],
   ['h', 'a', 'v', 'e', 'n'], ['h', 'a', 'v', 'e', 'n', apoc, 't'], ['i', 's', 'n'],
   ['i', 's', 'n', apoc, 't'], ['m', 'a'], ['m', 'i', 'g', 'h', 't', 'n'],
   ['m', 'i', 'g', 'h', 't', 'n', apoc, 't'], ['m', 'u', 's', 't', 'n'], ['m', 'u', 's', 't', 'n', apoc, 't'],
   ['n', 'e', 'e', 'd', 'n'], ['n', 'e', 'e', 'd', 'n', apoc, 't'], ['s', 'h', 'a', 'n'],
   ['s', 'h', 'a', 'n', apoc, 't'], ['s', 'h', 'o', 'u', 'l', 'd', 'n'], ['s', 'h', 'o', 'u', 'l', 'd', 'n', apoc, 't'],
   ['w', 'a', 's', 'n'], ['w', 'a', 's', 'n', apoc, 't'], ['w', 'e', 'r', 'e', 'n'],
   ['w', 'e', 'r', 'e', 'n', apoc, 't'], ['w', 'o', 'n'], ['w', 'o', 'n', apoc, 't'],
   ['w', 'o', 'u', 'l', 'd', 'n'], ['w', 'o', 'u', 'l', 'd', 'n', apoc, 't']]

/-- Wordness of the first character; the empty list counts as non-word
(string start or end for the `\\b` assertion). -/
def headW : List Char → Bool
  | [] => false
  | c :: _ => wchar c

/-- Wordness of the last character; the empty list counts as non-word. -/
def lastW : List Char → Bool
  | [] => false
  | [c] => wchar c
  | _ :: c :: cs => lastW (c :: cs)

/-- Does the first list occur literally at the head of the second? -/
def startsW : List Char → List Char → Bool
  | [], _ => true
  | _ :: _, [] => false
  | p :: ps, c :: cs => p == c && startsW ps cs

/-- The regex alternation `(w1|w2|...)` followed by `\\b`, tried at the
head of `l`: the first listed alternative that matches literally and is
followed by a word boundary wins (Python tries alternatives left to
right and backtracks into the alternation when the trailing `\\b`
fails). -/
def swPick (sws : List (List Char)) (l : List Char) : Option (List Char) :=
  sws.find? (fun w => startsW w l && (lastW w != headW (l.drop w.length)))

/-- Length of the match of `\\b(w1|...)\\b\\s*` (or without the `\\s*`
when `ws` is false) at the head of `l`, given the wordness `prevW` of the
previous character: the leading `\\b` compares `prevW` with the first
wordness of the first character, then the alternation and trailing boundary are
tried, then `\\s*` greedily takes whitespace. -/
def swMatchLen (ws : Bool) (prevW : Bool) (l : List Char) : Option Nat :=
  if prevW != headW l then
    match swPick stopwords l with
    | some m => some (m.length + (if ws then ((l.drop m.length).takeWhile wspace).length else 0))
    | none => none
  else none

/-- Global `re.sub` with the stopword pattern and empty replacement: scan
left to right; at a match, drop `n` characters and resume after them
(boundaries are evaluated on the original string, which the running
`prevW` state reproduces); otherwise copy one character. -/
def remStopGo (ws : Bool) : Nat → Bool → List Char → List Char
  | _, _, [] => []
  | k+1, _, c :: cs => remStopGo ws k (wchar c) cs
  | 0, prevW, c :: cs =>
    match swMatchLen ws prevW (c :: cs) with
    | some n => remStopGo ws (n - 1) (wchar c) cs
    | none => c :: remStopGo ws 0 (wchar c) cs

/-- Rule 8 of the cleaner: the stopword alternation regex, built by
joining the stopword list with the pipe character, wrapped in word
boundaries, followed by greedy whitespace, with empty replacement. -/
def remStop (l : List Char) : List Char := remStopGo true 0 false l

/-- The same stopword removal without the trailing `\\s*`, which is how
the specification states rule 8 (whole-word match only). -/
def remStopPlain (l : List Char) : List Char := remStopGo false 0 false l

/-- Membership in the stopword list. -/
def isStop (t : List Char) : Bool := stopwords.contains t

/-- Python `str.strip()` on the modelled alphabet: drop leading and
trailing whitespace. -/
def strip (l : List Char) : List Char :=
  ((l.dropWhile wspace).reverse.dropWhile wspace).reverse

/-- The cleaner `clean` of the notebook: the ten `re.sub`/`replace`/`strip`
steps applied in source order. -/
def clean (l : List Char) : List Char :=
  let s1 := l.map toSp
  let s2 := collapseRuns wspace s1
  let s3 := remNums s2
  let s4 := s3.filter (fun c => !c.isDigit)
  let s5 := s4.map (fun c => if c == 'é' then 'e' else c)
  let s6 := collapseRuns (fun c => !c.isAlphanum) s5
  let s7 := remShort s6
  let s8 := remStop s7
  collapseRuns spc (strip s8)


/-- Stages 1 to 6 of the cleaner (everything before the token-level
rules); used to state the token-level characterization of `clean`. -/
def cleanMid (l : List Char) : List Char :=
  collapseRuns (fun c => !c.isAlphanum)
    (((remNums (collapseRuns wspace (l.map toSp))).filter
        (fun c => !c.isDigit)).map (fun c => if c == 'é' then 'e' else c))

/-- The cleaner as section 4.1 of the specification words it: nine rules
in the listed order.  Rule 1 replaces every run of non-word characters
(or of multiple spaces, which such a run subsumes) by a single space;
rule 8 removes stopwords by whole-word match only (no trailing
whitespace is consumed); rule 9 trims and collapses whitespace runs.
Rules 2 to 7 are worded exactly as the steps of the code and reuse their
definitions. -/
def specClean (l : List Char) : List Char :=
  let r1 := collapseRuns (fun c => !wchar c) l
  let r2 := collapseRuns wspace r1
  let r3 := remNums r2
  let r4 := r3.filter (fun c => !c.isDigit)
  let r5 := r4.map (fun c => if c == 'é' then 'e' else c)
  let r6 := collapseRuns (fun c => !c.isAlphanum) r5
  let r7 := remShort r6
  let r8 := remStopPlain r7
  collapseRuns wspace (strip r8)

/-- Python `str.lower()` on the modelled alphabet (the loader lowercases
every file before cleaning). -/
def lowerStr (l : List Char) : List Char := l.map Char.toLower

/-- Modelled from the spec: the spaCy tokenizer is an external black box;
the documents it receives here are space-joined token strings, on which
it is modelled as whitespace tokenization. -/
def nlpTokens (l : List Char) : List (List Char) := wordsA wspace l

/-- Modelled from the spec: calling the spaCy pipeline `nlp(text)` fails
hard (raises, no truncation) when the text exceeds the configured
`max_length`; otherwise it yields the tokenized document. -/
def nlpRun (maxLen : Nat) (text : List Char) : Option (List (List Char)) :=
  if maxLen < text.length then none else some (nlpTokens text)

/-- The function `lemmaspacy` of the notebook, with the per-token lemmatization of the
pretrained model abstracted as the black-box parameter `lem`: it loads a
model with `max_length = 60000000`, runs it on the text, and joins the
token lemmata with single spaces, as the notebook joins them. -/
def lemmaspacy (lem : List Char → List Char) (text : List Char) : Option (List Char) :=
  (nlpRun 60000000 text).map (fun toks => unwords (toks.map lem))

/-- The noun-chunk concatenation of the loader loop:
`list_element = list_element + " " + chunk.text`, starting from the empty
string.  A chunk is a span of document tokens; its text is the tokens
joined by spaces. -/
def nounText (spans : List (List (List Char))) : List Char :=
  spans.foldl (fun acc sp => acc ++ ' ' :: unwords sp) []

/-- The pass of one document through the pipeline body of the loader loop:
lowercase, clean, lemmatize, re-parse and keep the noun chunks chosen by
the black-box `chunker`.  `none` models the run dying on a spaCy
overflow error. -/
def processDoc (lem : List Char → List Char)
    (chunker : List (List Char) → List (List (List Char)))
    (raw : List Char) : Option (List Char) :=
  (lemmaspacy lem (clean (lowerStr raw))).map
    (fun lstr => nounText (chunker (nlpTokens lstr)))

/-- The loader loop over the directory listing: for every entry it
appends the filename to `file_names` and the processed text to
`list_documents`.  An entry is a (filename, contents) pair and `proc` is
the per-document processing body. -/
def runLoader (proc : List Char → List Char)
    (entries : List (List Char × List Char)) :
    List (List Char) × List (List Char) :=
  entries.foldl (fun st e => (st.1 ++ [e.1], st.2 ++ [proc e.2])) ([], [])

/-- The writer loop: `for i in range(len(list_documents))`, write
document `i` to a file named `file_names[i]`.  The produced output files
are the (name, contents) pairs, in write order. -/
def runWriter (st : List (List Char) × List (List Char)) :
    List (List Char × List Char) :=
  st.1.zip st.2

theorem wspace_space : wspace ' ' = true := rfl

theorem spc_space : spc ' ' = true := rfl

theorem spc_iff {c : Char} : spc c = true ↔ c = ' ' := by
  simp [spc]

theorem wspace_cases {c : Char} (h : wspace c = true) :
    c = ' ' ∨ c = '\t' ∨ c = '\n' ∨ c = '\r' ∨ c = '\x0b' ∨ c = '\x0c' := by
  have h2 := h
  simp only [wspace, Bool.or_eq_true, beq_iff_eq] at h2
  tauto

theorem alpha_wchar {c : Char} (h : c.isAlpha = true) : wchar c = true := by
  simp [wchar, Char.isAlphanum, h]

theorem alpha_not_wspace {c : Char} (h : c.isAlpha = true) : wspace c = false := by
  cases hw : wspace c with
  | false => rfl
  | true =>
    exfalso
    rcases wspace_cases hw with rfl | rfl | rfl | rfl | rfl | rfl <;>
      exact absurd h (by decide)

theorem alpha_ne_space {c : Char} (h : c.isAlpha = true) : c ≠ ' ' := by
  intro hc; subst hc; simp_all

theorem wspace_not_wchar {c : Char} (h : wspace c = true) : wchar c = false := by
  rcases wspace_cases h with rfl | rfl | rfl | rfl | rfl | rfl <;> decide

theorem wchar_ne_space {c : Char} (h : wchar c = true) : c ≠ ' ' := by
  intro hc; subst hc; simp_all [wchar]

theorem alnum_nondigit_alpha {c : Char} (h : c.isAlphanum = true)
    (hd : c.isDigit = false) : c.isAlpha = true := by
  simp [Char.isAlphanum, hd] at h; exact h

theorem alpha_not_digit {c : Char} (h : c.isAlpha = true) : c.isDigit = false := by
  cases hd : c.isDigit with
  | false => rfl
  | true =>
    exfalso
    simp only [Char.isAlpha, Char.isUpper, Char.isLower, Bool.or_eq_true,
      Bool.and_eq_true, decide_eq_true_eq, ge_iff_le] at h
    simp only [Char.isDigit, Bool.and_eq_true, decide_eq_true_eq, ge_iff_le] at hd
    rcases h with h1 | h1 <;> exact absurd (UInt32.le_trans h1.1 hd.2) (by decide)

/-- Strings whose characters are ASCII letters or single spaces; every
string between stages 6 and 10 of the cleaner has this shape. -/
def Tame (l : List Char) : Prop := ∀ c ∈ l, c.isAlpha = true ∨ c = ' '

theorem tame_wspace_iff {l : List Char} (h : Tame l) {c : Char} (hc : c ∈ l) :
    wspace c = spc c := by
  rcases h c hc with ha | rfl
  · rw [alpha_not_wspace ha]
    cases hs : spc c with
    | false => rfl
    | true => exact absurd (spc_iff.mp hs) (alpha_ne_space ha)
  · rfl

theorem tame_cons {c : Char} {l : List Char} (h : Tame (c :: l)) : Tame l :=
  fun d hd => h d (List.mem_cons_of_mem _ hd)

theorem tame_append_right {l₁ l₂ : List Char} (h : Tame (l₁ ++ l₂)) : Tame l₂ :=
  fun d hd => h d (List.mem_append_right _ hd)

/-- Is the head of the list a separator (the empty list counts)? -/
def headP (p : Char → Bool) : List Char → Bool
  | [] => true
  | c :: _ => p c

theorem unwords_cons₂ {t : List Char} {ts : List (List Char)} (h : ts ≠ []) :
    unwords (t :: ts) = t ++ ' ' :: unwords ts := by
  cases ts with
  | nil => exact absurd rfl h
  | cons t2 ts2 => rfl

theorem wordsA_sep {p : Char → Bool} {c : Char} {cs : List Char} (h : p c = true) :
    wordsA p (c :: cs) = wordsA p cs := by
  simp [wordsA, h]

theorem wordsB_run {p : Char → Bool} (u : List Char) (hu : ∀ c ∈ u, p c = false) :
    ∀ (acc r : List Char), wordsB p acc (u ++ r) = wordsB p (acc ++ u) r := by
  induction u with
  | nil => intro acc r; simp
  | cons c u ih =>
    intro acc r
    have hc : p c = false := hu c (List.mem_cons_self _ _)
    simp only [List.cons_append, wordsB, hc, Bool.false_eq_true, if_false,
      List.append_eq]
    rw [ih (fun d hd => hu d (List.mem_cons_of_mem _ hd))]
    simp

theorem wordsA_tok {p : Char → Bool} {t r : List Char} (ht : t ≠ [])
    (htc : ∀ c ∈ t, p c = false) (hr : headP p r = true) :
    wordsA p (t ++ r) = t :: wordsA p r := by
  cases t with
  | nil => exact absurd rfl ht
  | cons c u =>
    have hc : p c = false := htc c (List.mem_cons_self _ _)
    simp only [List.cons_append, wordsA, hc, Bool.false_eq_true, if_false,
      List.append_eq]
    rw [wordsB_run u (fun d hd => htc d (List.mem_cons_of_mem _ hd))]
    cases r with
    | nil => simp [wordsB, wordsA]
    | cons d rs =>
      have hd : p d = true := hr
      simp [wordsB, wordsA, hd]

theorem wordsAB_append (p : Char → Bool) :
    ∀ (x y : List Char), headP p y = true →
      wordsA p (x ++ y) = wordsA p x ++ wordsA p y ∧
      ∀ acc, wordsB p acc (x ++ y) = wordsB p acc x ++ wordsA p y := by
  intro x
  induction x with
  | nil =>
    intro y hy
    constructor
    · simp [wordsA]
    · intro acc
      cases y with
      | nil => simp [wordsB, wordsA]
      | cons d rs =>
        have hd : p d = true := hy
        simp [wordsB, wordsA, hd]
  | cons c cs ih =>
    intro y hy
    constructor
    · cases hc : p c with
      | true => simpa [wordsA, hc] using (ih y hy).1
      | false => simpa [wordsA, hc] using (ih y hy).2 [c]
    · intro acc
      cases hc : p c with
      | true => simp [wordsB, hc, (ih y hy).1]
      | false => simpa [wordsB, hc] using (ih y hy).2 (acc ++ [c])

theorem wordsA_append {p : Char → Bool} {x y : List Char} (hy : headP p y = true) :
    wordsA p (x ++ y) = wordsA p x ++ wordsA p y :=
  (wordsAB_append p x y hy).1

theorem wordsAB_shape (p : Char → Bool) :
    ∀ (l : List Char),
      (∀ t ∈ wordsA p l, t ≠ [] ∧ ∀ c ∈ t, c ∈ l ∧ p c = false) ∧
      (∀ acc, acc ≠ [] → ∀ t ∈ wordsB p acc l,
        t ≠ [] ∧ ∀ c ∈ t, c ∈ acc ∨ (c ∈ l ∧ p c = false)) := by
  intro l
  induction l with
  | nil =>
    refine ⟨by simp [wordsA], ?_⟩
    intro acc hacc t ht
    simp only [wordsB, List.mem_singleton] at ht
    subst ht
    exact ⟨hacc, fun c hc => Or.inl hc⟩
  | cons c cs ih =>
    constructor
    · intro t ht
      cases hc : p c with
      | true =>
        rw [wordsA_sep hc] at ht
        obtain ⟨h1, h2⟩ := ih.1 t ht
        exact ⟨h1, fun d hd => ⟨List.mem_cons_of_mem _ (h2 d hd).1, (h2 d hd).2⟩⟩
      | false =>
        simp only [wordsA, hc, Bool.false_eq_true, if_false] at ht
        obtain ⟨h1, h2⟩ := ih.2 [c] (by simp) t ht
        refine ⟨h1, fun d hd => ?_⟩
        rcases h2 d hd with h3 | h3
        · simp only [List.mem_singleton] at h3
          subst h3
          exact ⟨List.mem_cons_self _ _, hc⟩
        · exact ⟨List.mem_cons_of_mem _ h3.1, h3.2⟩
    · intro acc hacc t ht
      cases hc : p c with
      | true =>
        simp only [wordsB, hc, if_true, List.mem_cons] at ht
        rcases ht with rfl | ht
        · exact ⟨hacc, fun d hd => Or.inl hd⟩
        · obtain ⟨h1, h2⟩ := ih.1 t ht
          exact ⟨h1, fun d hd =>
            Or.inr ⟨List.mem_cons_of_mem _ (h2 d hd).1, (h2 d hd).2⟩⟩
      | false =>
        simp only [wordsB, hc, Bool.false_eq_true, if_false] at ht
        obtain ⟨h1, h2⟩ := ih.2 (acc ++ [c]) (by simp) t ht
        refine ⟨h1, fun d hd => ?_⟩
        rcases h2 d hd with h3 | h3
        · rcases List.mem_append.mp h3 with h4 | h4
          · exact Or.inl h4
          · simp only [List.mem_singleton] at h4
            subst h4
            exact Or.inr ⟨List.mem_cons_self _ _, hc⟩
        · exact Or.inr ⟨List.mem_cons_of_mem _ h3.1, h3.2⟩

theorem wordsA_shape {p : Char → Bool} {l : List Char} {t : List Char}
    (ht : t ∈ wordsA p l) : t ≠ [] ∧ ∀ c ∈ t, c ∈ l ∧ p c = false :=
  (wordsAB_shape p l).1 t ht

theorem wordsAB_congr {p q : Char → Bool} :
    ∀ (l : List Char), (∀ c ∈ l, p c = q c) →
      wordsA p l = wordsA q l ∧ ∀ acc, wordsB p acc l = wordsB q acc l := by
  intro l
  induction l with
  | nil => exact fun _ => ⟨rfl, fun _ => rfl⟩
  | cons c cs ih =>
    intro h
    have hc : p c = q c := h c (List.mem_cons_self _ _)
    have ihcs := ih (fun d hd => h d (List.mem_cons_of_mem _ hd))
    constructor
    · cases hq : q c with
      | true => simp [wordsA, hc, hq, ihcs.1]
      | false => simp [wordsA, hc, hq, ihcs.2 [c]]
    · intro acc
      cases hq : q c with
      | true => simp [wordsB, hc, hq, ihcs.1]
      | false => simp [wordsB, hc, hq, ihcs.2 (acc ++ [c])]

theorem wordsA_congr {p q : Char → Bool} {l : List Char}
    (h : ∀ c ∈ l, p c = q c) : wordsA p l = wordsA q l :=
  (wordsAB_congr l h).1

theorem wordsAB_empty_iff (p : Char → Bool) :
    ∀ (l : List Char), (wordsA p l = [] ↔ ∀ c ∈ l, p c = true) ∧
      ∀ acc, wordsB p acc l ≠ [] := by
  intro l
  induction l with
  | nil => simp [wordsA, wordsB]
  | cons c cs ih =>
    constructor
    · cases hc : p c with
      | true => simp [wordsA, hc, ih.1]
      | false =>
        simp only [wordsA, hc, Bool.false_eq_true, if_false]
        constructor
        · intro h; exact absurd h (ih.2 [c])
        · intro h
          exact absurd (h c (List.mem_cons_self _ _)) (by simp [hc])
    · intro acc
      cases hc : p c with
      | true => simp [wordsB, hc]
      | false => simpa [wordsB, hc] using ih.2 (acc ++ [c])

theorem wordsA_empty_iff {p : Char → Bool} {l : List Char} :
    wordsA p l = [] ↔ ∀ c ∈ l, p c = true :=
  (wordsAB_empty_iff p l).1

theorem wordsA_unwords {p : Char → Bool} (hsp : p ' ' = true) :
    ∀ (ts : List (List Char)), (∀ t ∈ ts, t ≠ [] ∧ ∀ c ∈ t, p c = false) →
      wordsA p (unwords ts) = ts := by
  intro ts
  induction ts with
  | nil => exact fun _ => rfl
  | cons t ts ih =>
    intro h
    have ht := h t (List.mem_cons_self _ _)
    cases ts with
    | nil =>
      have h0 := wordsA_tok (p := p) (r := []) ht.1 ht.2 rfl
      simpa [wordsA, unwords] using h0
    | cons t2 ts2 =>
      rw [unwords_cons₂ (by simp)]
      rw [wordsA_tok ht.1 ht.2 (by simpa [headP] using hsp)]
      rw [wordsA_sep hsp]
      rw [ih (fun u hu => h u (List.mem_cons_of_mem _ hu))]

/-- No two adjacent characters both satisfy `p`: the output shape of a
run-collapsing substitution. -/
def NoTwo (p : Char → Bool) : List Char → Prop
  | [] => True
  | [_] => True
  | c :: d :: cs => ¬(p c = true ∧ p d = true) ∧ NoTwo p (d :: cs)

theorem noTwo_mono {p q : Char → Bool} (h : ∀ c, q c = true → p c = true) :
    ∀ l, NoTwo p l → NoTwo q l := by
  intro l
  induction l with
  | nil => exact fun h2 => h2
  | cons c cs ih =>
    cases cs with
    | nil => exact fun _ => trivial
    | cons d ds =>
      intro h2
      exact ⟨fun h3 => h2.1 ⟨h c h3.1, h d h3.2⟩, ih h2.2⟩

theorem collapse_append {p : Char → Bool} :
    ∀ {t r : List Char}, (∀ c ∈ t, p c = false) →
      collapseRuns p (t ++ r) = t ++ collapseRuns p r := by
  intro t
  induction t with
  | nil => intro r _; rfl
  | cons c t ih =>
    intro r ht
    have hc : p c = false := ht c (List.mem_cons_self _ _)
    cases t with
    | nil =>
      cases r with
      | nil => simp [collapseRuns, hc]
      | cons d rs => simp [collapseRuns, hc]
    | cons e t2 =>
      have he : p e = false := ht e (List.mem_cons_of_mem _ (List.mem_cons_self _ _))
      have ih2 := ih (r := r) (fun d hd => ht d (List.mem_cons_of_mem _ hd))
      simp only [List.cons_append, collapseRuns, hc, he, Bool.false_and,
        Bool.false_eq_true, if_false, List.append_eq] at ih2 ⊢
      rw [ih2]

theorem collapse_mem {p : Char → Bool} :
    ∀ {l : List Char} {c : Char}, c ∈ collapseRuns p l →
      (c ∈ l ∧ p c = false) ∨ c = ' ' := by
  intro l
  induction l with
  | nil => intro c hc; simp [collapseRuns] at hc
  | cons a l ih =>
    intro c hc
    cases l with
    | nil =>
      cases ha : p a with
      | true =>
        simp only [collapseRuns, ha, if_true, List.mem_singleton] at hc
        exact Or.inr hc
      | false =>
        simp only [collapseRuns, ha, Bool.false_eq_true, if_false,
          List.mem_singleton] at hc
        subst hc
        exact Or.inl ⟨List.mem_cons_self _ _, ha⟩
    | cons d ds =>
      by_cases hg : (p a && p d) = true
      · simp only [collapseRuns, hg, if_true] at hc
        rcases ih hc with h1 | h1
        · exact Or.inl ⟨List.mem_cons_of_mem _ h1.1, h1.2⟩
        · exact Or.inr h1
      · simp only [collapseRuns, hg, Bool.false_eq_true, if_false,
          List.mem_cons] at hc
        rcases hc with heq | hmem
        · subst heq
          cases ha : p a with
          | true => simp [ha]
          | false => simp [ha]
        · rcases ih hmem with h1 | h1
          · exact Or.inl ⟨List.mem_cons_of_mem _ h1.1, h1.2⟩
          · exact Or.inr h1

theorem collapse_head_sep {p : Char → Bool} :
    ∀ {xs : List Char} {x : Char}, p x = true →
      ∃ ds, collapseRuns p (x :: xs) = ' ' :: ds := by
  intro xs
  induction xs with
  | nil => intro x hx; exact ⟨[], by simp [collapseRuns, hx]⟩
  | cons d ds ih =>
    intro x hx
    cases hd : p d with
    | true =>
      have := ih hd
      simpa [collapseRuns, hx, hd] using this
    | false => exact ⟨collapseRuns p (d :: ds), by simp [collapseRuns, hx, hd]⟩

theorem collapse_head_keep {p : Char → Bool} {xs : List Char} {x : Char}
    (hx : p x = false) : ∃ ds, collapseRuns p (x :: xs) = x :: ds := by
  cases xs with
  | nil => exact ⟨[], by simp [collapseRuns, hx]⟩
  | cons d ds => exact ⟨collapseRuns p (d :: ds), by simp [collapseRuns, hx]⟩

theorem collapse_noTwo {p : Char → Bool} :
    ∀ (l : List Char), NoTwo p (collapseRuns p l) := by
  intro l
  induction l with
  | nil => trivial
  | cons a l ih =>
    cases l with
    | nil =>
      cases ha : p a <;> simp [collapseRuns, ha, NoTwo]
    | cons d ds =>
      by_cases hg : (p a && p d) = true
      · simpa [collapseRuns, hg] using ih
      · simp only [collapseRuns, hg, if_false]
        cases hX : collapseRuns p (d :: ds) with
        | nil => exact trivial
        | cons y ys =>
          have hnt : NoTwo p (y :: ys) := by rw [← hX]; exact ih
          refine ⟨?_, hnt⟩
          rintro ⟨h1, h2⟩
          have hpa : p a = true := by
            by_contra hpa
            simp only [Bool.not_eq_true] at hpa
            simp [hpa] at h1
          have hpd : p d = true := by
            by_contra hpd
            simp only [Bool.not_eq_true] at hpd
            obtain ⟨ds2, hds2⟩ := @collapse_head_keep p ds d hpd
            rw [hds2] at hX
            injection hX with hy2 _
            subst hy2
            exact absurd h2 (by simp [hpd])
          exact hg (by simp [hpa, hpd])

theorem collapse_id {p : Char → Bool} :
    ∀ {l : List Char}, NoTwo p l → (∀ c ∈ l, p c = true → c = ' ') →
      collapseRuns p l = l := by
  intro l
  induction l with
  | nil => intro _ _; rfl
  | cons a l ih =>
    intro h1 h2
    cases l with
    | nil =>
      cases ha : p a with
      | true => simp [collapseRuns, ha, h2 a (List.mem_cons_self _ _) ha]
      | false => simp [collapseRuns, ha]
    | cons d ds =>
      have hg : (p a && p d) ≠ true := by
        intro h3
        exact h1.1 (by simpa using h3)
      have ihd := ih h1.2 (fun c hc h3 => h2 c (List.mem_cons_of_mem _ hc) h3)
      simp only [collapseRuns, hg, if_false, ihd]
      cases ha : p a with
      | true => simp [ha, h2 a (List.mem_cons_self _ _) ha]
      | false => simp [ha]

theorem collapse_map {p q : Char → Bool} {f : Char → Char}
    (hq : ∀ c, q (f c) = p c) (hid : ∀ c, p c = false → f c = c) :
    ∀ (l : List Char), collapseRuns q (l.map f) = collapseRuns p l := by
  intro l
  induction l with
  | nil => rfl
  | cons a l ih =>
    cases l with
    | nil =>
      show collapseRuns q [f a] = collapseRuns p [a]
      simp only [collapseRuns, hq a]
      cases ha : p a with
      | true => simp
      | false => simp [hid a ha]
    | cons d ds =>
      show collapseRuns q (f a :: f d :: List.map f ds) = collapseRuns p (a :: d :: ds)
      simp only [collapseRuns, hq a, hq d]
      cases ha : p a with
      | true =>
        cases hd : p d with
        | true => simpa [ha, hd] using ih
        | false => simpa [ha, hd] using ih
      | false => simpa [ha, hid a ha] using ih

theorem collapse_run_lead {p : Char → Bool} :
    ∀ {u x : List Char}, u ≠ [] → (∀ c ∈ u, p c = true) →
      headP (fun c => !p c) x = true →
      collapseRuns p (u ++ x) = ' ' :: collapseRuns p x := by
  intro u
  induction u with
  | nil => intro x h; exact absurd rfl h
  | cons c u ih =>
    intro x _ hu hx
    have hc : p c = true := hu c (List.mem_cons_self _ _)
    cases u with
    | nil =>
      cases x with
      | nil => simp [collapseRuns, hc]
      | cons d ds =>
        have hd : p d = false := by
          have := hx
          simp only [headP, Bool.not_eq_true'] at this
          exact this
        simp [collapseRuns, hc, hd]
    | cons e u2 =>
      have heq : p e = true := hu e (List.mem_cons_of_mem _ (List.mem_cons_self _ _))
      have ih2 := ih (x := x) (by simp) (fun d hd => hu d (List.mem_cons_of_mem _ hd)) hx
      simpa [collapseRuns, hc, heq] using ih2

theorem dropWhile_append_none {p : Char → Bool} :
    ∀ {a b : List Char}, (∀ c ∈ a, p c = true) →
      (a ++ b).dropWhile p = b.dropWhile p := by
  intro a
  induction a with
  | nil => intro b _; rfl
  | cons c a ih =>
    intro b h
    have hc : p c = true := h c (List.mem_cons_self _ _)
    simp only [List.cons_append, List.dropWhile_cons, hc, if_true]
    exact ih (fun d hd => h d (List.mem_cons_of_mem _ hd))

theorem dropWhile_append_keep {p : Char → Bool} :
    ∀ {a b : List Char}, a.dropWhile p ≠ [] →
      (a ++ b).dropWhile p = a.dropWhile p ++ b := by
  intro a
  induction a with
  | nil => intro b h; exact absurd rfl h
  | cons c a ih =>
    intro b h
    cases hc : p c with
    | true =>
      rw [List.dropWhile_cons, if_pos hc] at h ⊢
      simp only [List.cons_append, List.dropWhile_cons, hc, if_true]
      exact ih h
    | false =>
      simp [List.dropWhile_cons, hc]

theorem dropWhile_head {p : Char → Bool} :
    ∀ {a : List Char} {c : Char} {cs : List Char},
      a.dropWhile p = c :: cs → p c = false := by
  intro a
  induction a with
  | nil => intro c cs h; exact absurd h (by simp)
  | cons d a ih =>
    intro c cs h
    cases hd : p d with
    | true =>
      rw [List.dropWhile_cons, if_pos hd] at h
      exact ih h
    | false =>
      rw [List.dropWhile_cons, if_neg (by simp [hd])] at h
      injection h with h1 _
      subst h1
      exact hd

/-- The right-strip: drop trailing whitespace. -/
def rstr (l : List Char) : List Char := (l.reverse.dropWhile wspace).reverse

theorem strip_as_rstr (l : List Char) : strip l = rstr (l.dropWhile wspace) := rfl

theorem strip_sep {c : Char} {cs : List Char} (h : wspace c = true) :
    strip (c :: cs) = strip cs := by
  simp [strip, List.dropWhile_cons, h]

theorem rstr_all {r : List Char} (h : ∀ c ∈ r, wspace c = true) : rstr r = [] := by
  have : r.reverse.dropWhile wspace = [] :=
    List.dropWhile_eq_nil_iff.mpr (by
      intro c hc
      exact h c (List.mem_reverse.mp hc))
  simp [rstr, this]

theorem rstr_split (l : List Char) :
    ∃ s, l = rstr l ++ s ∧ ∀ c ∈ s, wspace c = true := by
  refine ⟨(l.reverse.takeWhile wspace).reverse, ?_, ?_⟩
  · have h2 : l = (l.reverse.takeWhile wspace ++ l.reverse.dropWhile wspace).reverse := by
      rw [List.takeWhile_append_dropWhile, List.reverse_reverse]
    conv_lhs => rw [h2]
    rw [List.reverse_append]
    rfl
  · intro c hc
    exact List.mem_takeWhile_imp (List.mem_reverse.mp hc)

theorem rstr_append_keep {t r : List Char}
    (htc : ∀ c ∈ t, wspace c = false) : rstr (t ++ r) = t ++ rstr r := by
  rw [rstr, List.reverse_append]
  by_cases hr : r.reverse.dropWhile wspace = []
  · have hall : ∀ c ∈ r.reverse, wspace c = true := by
      intro c hc
      exact List.dropWhile_eq_nil_iff.mp hr c hc
    rw [dropWhile_append_none hall]
    have htrev : t.reverse.dropWhile wspace = t.reverse := by
      cases h : t.reverse with
      | nil => simp
      | cons c cs =>
        have hc : wspace c = false := by
          have hmm : c ∈ t.reverse := by rw [h]; exact List.mem_cons_self _ _
          exact htc c (List.mem_reverse.mp hmm)
        simp [List.dropWhile_cons, hc]
    rw [htrev, List.reverse_reverse]
    have : rstr r = [] := by
      apply rstr_all
      intro c hc
      exact hall c (List.mem_reverse.mpr hc)
    rw [this, List.append_nil]
  · rw [dropWhile_append_keep hr, List.reverse_append, List.reverse_reverse]
    rfl

theorem tame_strip_collapse :
    ∀ (n : Nat) (l : List Char), l.length ≤ n → Tame l →
      collapseRuns spc (strip l) = unwords (wordsA spc l) := by
  intro n
  induction n with
  | zero =>
    intro l hl _
    have : l = [] := List.length_eq_zero.mp (Nat.le_zero.mp hl)
    subst this
    rfl
  | succ n ih =>
    intro l hl htame
    cases l with
    | nil => rfl
    | cons c cs =>
      rcases htame c (List.mem_cons_self _ _) with hca | hcs
      · -- token case: c starts a run of non-space characters
        set t : List Char := c :: cs.takeWhile (fun d => !spc d) with hT
        set rest : List Char := cs.dropWhile (fun d => !spc d) with hR
        have hsplit : c :: cs = t ++ rest := by
          rw [hT, hR]
          simp [List.takeWhile_append_dropWhile]
        have htne : t ≠ [] := by rw [hT]; simp
        have htc : ∀ d ∈ t, spc d = false := by
          intro d hd
          rw [hT] at hd
          rcases List.mem_cons.mp hd with rfl | hd2
          · cases h : spc d with
            | false => rfl
            | true => exact absurd (spc_iff.mp h) (alpha_ne_space hca)
          · have := List.mem_takeWhile_imp hd2
            simpa using this
        have htalpha : ∀ d ∈ t, d.isAlpha = true := by
          intro d hd
          have hdl : d ∈ c :: cs := by rw [hsplit]; exact List.mem_append_left _ hd
          rcases htame d hdl with h1 | h1
          · exact h1
          · exfalso
            have h2 := htc d hd
            rw [h1] at h2
            simp [spc] at h2
        have hrhead : headP spc rest = true := by
          rw [hR]
          cases h : cs.dropWhile (fun d => !spc d) with
          | nil => rfl
          | cons d ds =>
            have := dropWhile_head h
            simpa [headP] using this
        have hwords : wordsA spc (c :: cs) = t :: wordsA spc rest := by
          rw [hsplit]
          exact wordsA_tok htne htc hrhead
        have htws : ∀ d ∈ t, wspace d = false := fun d hd =>
          alpha_not_wspace (htalpha d hd)
        have hstrip : strip (c :: cs) = t ++ rstr rest := by
          rw [hsplit, strip]
          have h1 : (t ++ rest).dropWhile wspace = t ++ rest := by
            cases hT2 : t with
            | nil => exact absurd hT2 htne
            | cons x xs =>
              have hx : wspace x = false := by
                apply htws
                rw [hT2]; exact List.mem_cons_self _ _
              simp [hT2, List.dropWhile_cons, hx]
          rw [h1]
          exact rstr_append_keep htws
        have hrest_tame : Tame rest := by
          intro d hd
          exact htame d (by rw [hsplit]; exact List.mem_append_right _ hd)
        have hrest_len : rest.length ≤ n := by
          have : (c :: cs).length = t.length + rest.length := by
            rw [hsplit, List.length_append]
          have htpos : 1 ≤ t.length := by
            cases hT2 : t with
            | nil => exact absurd hT2 htne
            | cons x xs => simp
          omega
        cases hwr : wordsA spc rest with
        | nil =>
          -- everything after the token is whitespace
          have hall : ∀ d ∈ rest, spc d = true := wordsA_empty_iff.mp hwr
          have : rstr rest = [] := by
            apply rstr_all
            intro d hd
            rw [spc_iff.mp (hall d hd)]
            decide
          have h2 : collapseRuns spc t = t := by
            have h3 := collapse_append (p := spc) (t := t) (r := []) htc
            simpa [collapseRuns] using h3
          rw [hstrip, this, List.append_nil, hwords, hwr, h2]
          rfl
        | cons w ws =>
          -- there is a further token; rest starts with a space
          have hrne : rest ≠ [] := by
            intro h0
            rw [h0] at hwr
            simp [wordsA] at hwr
          obtain ⟨d, ds, hda⟩ : ∃ d ds, rest = d :: ds := by
            cases hq : rest with
            | nil => exact absurd hq hrne
            | cons d ds => exact ⟨d, ds, rfl⟩
          have hd : spc d = true := by
            have := hrhead
            rw [hda] at this
            simpa [headP] using this
          have hdsp : d = ' ' := spc_iff.mp hd
          -- split rest into its leading whitespace and the remainder
          set tw : List Char := rest.takeWhile wspace with hTW
          set dw : List Char := rest.dropWhile wspace with hDW
          have hrsplit : rest = tw ++ dw := by
            rw [hTW, hDW]; simp [List.takeWhile_append_dropWhile]
          have htwne : tw ≠ [] := by
            rw [hTW, hda, hdsp]
            simp [List.takeWhile_cons, wspace_space]
          have htwall : ∀ e ∈ tw, wspace e = true := by
            intro e he
            rw [hTW] at he
            exact List.mem_takeWhile_imp he
          have hdwne : dw ≠ [] := by
            intro h0
            have hall : ∀ e ∈ rest, wspace e = true := by
              rw [hDW] at h0
              exact List.dropWhile_eq_nil_iff.mp h0
            have : wordsA spc rest = [] := by
              apply wordsA_empty_iff.mpr
              intro e he
              rcases hrest_tame e he with h1 | h1
              · exact absurd (hall e he) (by simp [alpha_not_wspace h1])
              · simp [h1, spc]
            rw [this] at hwr
            exact absurd hwr (by simp)
          have hrstr : rstr rest = tw ++ strip rest := by
            have h1 : strip rest = rstr dw := by rw [strip_as_rstr, hDW]
            rw [h1]
            conv_lhs => rw [hrsplit]
            rw [rstr, List.reverse_append]
            have hdwrev : dw.reverse.dropWhile wspace ≠ [] := by
              intro h0
              apply hdwne
              have hall := List.dropWhile_eq_nil_iff.mp h0
              cases hdw2 : dw with
              | nil => rfl
              | cons e es =>
                have he : wspace e = false := by
                  apply dropWhile_head (a := rest)
                  rw [← hDW, hdw2]
                have : wspace e = true := by
                  apply hall
                  rw [hdw2]
                  simp
                rw [he] at this
                exact absurd this (by simp)
            rw [dropWhile_append_keep hdwrev, List.reverse_append,
              List.reverse_reverse]
            rfl
          -- the remainder after the leading whitespace starts with a non-space
          have hstriphead : headP (fun e => !spc e) (strip rest) = true := by
            have h1 : strip rest = rstr dw := by rw [strip_as_rstr, hDW]
            cases h2 : strip rest with
            | nil => rfl
            | cons e es =>
              obtain ⟨s, hs1, _⟩ := rstr_split dw
              rw [h1] at h2
              rw [h2] at hs1
              have : dw = e :: (es ++ s) := by simpa using hs1
              have he : wspace e = false := by
                apply dropWhile_head (a := rest)
                rw [← hDW, this]
              have : spc e = false := by
                cases h3 : spc e with
                | false => rfl
                | true =>
                  rw [spc_iff.mp h3] at he
                  exact absurd he (by simp [wspace_space])
              simp [headP, this]
          have ihrest := ih rest hrest_len hrest_tame
          rw [hstrip, hrstr, collapse_append htc,
            collapse_run_lead htwne (by
              intro e he
              have hw := htwall e he
              rcases hrest_tame e (by rw [hrsplit]; exact List.mem_append_left _ he) with h2 | h2
              · exact absurd hw (by simp [alpha_not_wspace h2])
              · rw [h2]; exact spc_space) hstriphead]
          rw [ihrest, hwords, hwr]
          rw [@unwords_cons₂ t (w :: ws) (by simp)]
      · -- separator case: the head is a space
        subst hcs
        have h1 : strip (' ' :: cs) = strip cs := strip_sep rfl
        have h2 : wordsA spc (' ' :: cs) = wordsA spc cs := wordsA_sep rfl
        rw [h1, h2]
        exact ih cs (by simpa using hl) (tame_cons htame)

theorem tame_decomp {c : Char} {cs : List Char} (htame : Tame (c :: cs))
    (hca : c.isAlpha = true) :
    ∃ t rest, c :: cs = t ++ rest ∧ t ≠ [] ∧ (∀ d ∈ t, d.isAlpha = true) ∧
      (∀ d ∈ t, spc d = false) ∧ headP spc rest = true ∧ Tame rest ∧
      rest.length < (c :: cs).length ∧ headW rest = false ∧
      wordsA spc (c :: cs) = t :: wordsA spc rest := by
  set t : List Char := c :: cs.takeWhile (fun d => !spc d) with hT
  set rest : List Char := cs.dropWhile (fun d => !spc d) with hR
  have hsplit : c :: cs = t ++ rest := by
    rw [hT, hR]
    simp [List.takeWhile_append_dropWhile]
  have htc : ∀ d ∈ t, spc d = false := by
    intro d hd
    rw [hT] at hd
    rcases List.mem_cons.mp hd with rfl | hd2
    · cases h : spc d with
      | false => rfl
      | true => exact absurd (spc_iff.mp h) (alpha_ne_space hca)
    · simpa using List.mem_takeWhile_imp hd2
  have htalpha : ∀ d ∈ t, d.isAlpha = true := by
    intro d hd
    have hdl : d ∈ c :: cs := by rw [hsplit]; exact List.mem_append_left _ hd
    rcases htame d hdl with h1 | h1
    · exact h1
    · exfalso
      have h2 := htc d hd
      rw [h1] at h2
      simp [spc] at h2
  have hrhead : headP spc rest = true := by
    rw [hR]
    cases h : cs.dropWhile (fun d => !spc d) with
    | nil => rfl
    | cons d ds => simpa [headP] using dropWhile_head h
  have htameR : Tame rest := fun d hd =>
    htame d (by rw [hsplit]; exact List.mem_append_right _ hd)
  have hlen : rest.length < (c :: cs).length := by
    have h1 : (c :: cs).length = t.length + rest.length := by
      rw [hsplit, List.length_append]
    have h2 : 1 ≤ t.length := by rw [hT]; simp
    omega
  have hheadW : headW rest = false := by
    cases h : rest with
    | nil => rfl
    | cons d ds =>
      have hd : spc d = true := by
        have h2 := hrhead
        rw [h] at h2
        simpa [headP] using h2
      rw [headW, wspace_not_wchar (by rw [spc_iff.mp hd]; rfl)]
  have hwords : wordsA spc (c :: cs) = t :: wordsA spc rest := by
    rw [hsplit]
    exact wordsA_tok (by rw [hT]; simp) htc hrhead
  exact ⟨t, rest, hsplit, by rw [hT]; simp, htalpha, htc, hrhead, htameR,
    hlen, hheadW, hwords⟩

theorem remNumsA_id : ∀ {l : List Char} (prevW : Bool),
    (∀ c ∈ l, c.isDigit = false) → remNumsA prevW l = l := by
  intro l
  induction l with
  | nil => intro prevW _; rfl
  | cons c cs ih =>
    intro prevW h
    have hc : c.isDigit = false := h c (List.mem_cons_self _ _)
    simp only [remNumsA, hc, Bool.false_and, Bool.false_eq_true, if_false]
    rw [ih (wchar c) (fun d hd => h d (List.mem_cons_of_mem _ hd))]

theorem remShortA_sep {c : Char} {z : List Char} (prev : Bool)
    (h : wchar c = false) :
    remShortA prev (c :: z) = c :: remShortA false z := by
  simp [remShortA, h]

theorem remShortA_prev_irrel {cs : List Char} (h : headW cs = false)
    (p1 p2 : Bool) : remShortA p1 cs = remShortA p2 cs := by
  cases cs with
  | nil => rfl
  | cons c z =>
    have hc : wchar c = false := by simpa [headW] using h
    rw [remShortA_sep p1 hc, remShortA_sep p2 hc]

theorem remShortA_copy : ∀ {u : List Char}, (∀ c ∈ u, wchar c = true) →
    ∀ (r : List Char), remShortA true (u ++ r) = u ++ remShortA true r := by
  intro u
  induction u with
  | nil => intro _ r; rfl
  | cons c cs ih =>
    intro h r
    have hc : wchar c = true := h c (List.mem_cons_self _ _)
    simp only [List.cons_append, remShortA, hc, Bool.not_true, Bool.and_false,
      Bool.false_eq_true, if_false, List.append_eq]
    rw [ih (fun d hd => h d (List.mem_cons_of_mem _ hd)) r]

theorem remShortA_tok_short {t cs : List Char} (ht : t ≠ [])
    (htw : ∀ c ∈ t, wchar c = true) (hlen : t.length ≤ 2)
    (hcs : headW cs = false) :
    remShortA false (t ++ cs) = remShortA false cs := by
  match t, ht with
  | [a], _ =>
    have ha : wchar a = true := htw a (List.mem_cons_self _ _)
    cases cs with
    | nil => simp [remShortA, remShortB, ha]
    | cons c z =>
      have hc : wchar c = false := by simpa [headW] using hcs
      simp [remShortA, remShortB, ha, hc]
  | [a, b], _ =>
    have ha : wchar a = true := htw a (by simp)
    have hb : wchar b = true := htw b (by simp)
    cases cs with
    | nil => simp [remShortA, remShortB, ha, hb]
    | cons c z =>
      have hc : wchar c = false := by simpa [headW] using hcs
      simp [remShortA, remShortB, ha, hb, hc]
  | a :: b :: c :: u, _ =>
    exfalso
    simp at hlen

theorem remShortA_tok_keep {t cs : List Char}
    (htw : ∀ c ∈ t, wchar c = true) (hlen : 3 ≤ t.length)
    (hcs : headW cs = false) :
    remShortA false (t ++ cs) = t ++ remShortA false cs := by
  match t with
  | a :: b :: c :: u =>
    have ha : wchar a = true := htw a (by simp)
    have hb : wchar b = true := htw b (by simp)
    have hc : wchar c = true := htw c (by simp)
    have hcopy := remShortA_copy (u := u) (fun d hd => htw d (by simp [hd])) cs
    have hirr := remShortA_prev_irrel hcs true false
    simp only [List.cons_append, remShortA, remShortB, ha, hb, hc,
      Bool.not_false, Bool.and_true, if_true, List.append_eq]
    norm_num
    rw [hcopy, hirr]
  | [] => exfalso; simp at hlen
  | [a] => exfalso; simp at hlen
  | [a, b] => exfalso; simp at hlen

theorem wchar_space : wchar ' ' = false := rfl

theorem remShortAB_subset :
    ∀ (l : List Char),
      (∀ (prev : Bool) (c : Char), c ∈ remShortA prev l → c ∈ l) ∧
      (∀ (run : List Char) (c : Char), c ∈ remShortB run l → c ∈ run ∨ c ∈ l) := by
  intro l
  induction l with
  | nil =>
    constructor
    · intro prev c hc; simp [remShortA] at hc
    · intro run c hc; simp [remShortB] at hc
  | cons a cs ih =>
    constructor
    · intro prev c hc
      by_cases hg : (wchar a && !prev) = true
      · simp only [remShortA, hg, if_true] at hc
        rcases ih.2 [a] c hc with h1 | h1
        · simp only [List.mem_singleton] at h1
          subst h1
          exact List.mem_cons_self _ _
        · exact List.mem_cons_of_mem _ h1
      · simp only [remShortA, hg, Bool.false_eq_true, if_false,
          List.mem_cons] at hc
        rcases hc with heq | hmem
        · subst heq
          exact List.mem_cons_self _ _
        · exact List.mem_cons_of_mem _ (ih.1 _ c hmem)
    · intro run c hc
      cases hw : wchar a with
      | true =>
        by_cases h2 : (run.length == 2) = true
        · simp only [remShortB, hw, if_true, h2, List.mem_append,
            List.mem_cons] at hc
          rcases hc with h3 | h3 | h3
          · exact Or.inl h3
          · subst h3
            exact Or.inr (List.mem_cons_self _ _)
          · exact Or.inr (List.mem_cons_of_mem _ (ih.1 true c h3))
        · simp only [remShortB, hw, if_true, h2, if_false] at hc
          rcases ih.2 (run ++ [a]) c hc with h3 | h3
          · rcases List.mem_append.mp h3 with h4 | h4
            · exact Or.inl h4
            · simp only [List.mem_singleton] at h4
              subst h4
              exact Or.inr (List.mem_cons_self _ _)
          · exact Or.inr (List.mem_cons_of_mem _ h3)
      | false =>
        simp only [remShortB, hw, Bool.false_eq_true, if_false,
          List.mem_cons] at hc
        rcases hc with heq | hmem
        · subst heq
          exact Or.inr (List.mem_cons_self _ _)
        · exact Or.inr (List.mem_cons_of_mem _ (ih.1 _ c hmem))

theorem remShort_subset {l : List Char} {c : Char} (hc : c ∈ remShort l) :
    c ∈ l := (remShortAB_subset l).1 false c hc

theorem remShortA_headP {rest : List Char} (h : headP spc rest = true) :
    headP spc (remShortA false rest) = true := by
  cases rest with
  | nil => rfl
  | cons d ds =>
    have hd : d = ' ' := spc_iff.mp h
    subst hd
    rw [remShortA_sep false wchar_space]
    rfl

theorem remShort_words :
    ∀ (n : Nat) (l : List Char), l.length ≤ n → Tame l →
      wordsA spc (remShort l) =
        (wordsA spc l).filter (fun t => decide (2 < t.length)) := by
  intro n
  induction n with
  | zero =>
    intro l hl _
    have : l = [] := List.length_eq_zero.mp (Nat.le_zero.mp hl)
    subst this
    rfl
  | succ n ih =>
    intro l hl htame
    cases l with
    | nil => rfl
    | cons c cs =>
      rcases htame c (List.mem_cons_self _ _) with hca | hcs
      · obtain ⟨t, rest, hsplit, htne, htalpha, htc, hrhead, htameR, hlen,
          hheadW, hwords⟩ := tame_decomp htame hca
        have htw : ∀ d ∈ t, wchar d = true := fun d hd => alpha_wchar (htalpha d hd)
        have hrl : rest.length ≤ n := by
          have := hlen
          simp only [List.length_cons] at this
          omega
        have ihr := ih rest hrl htameR
        by_cases hbig : 2 < t.length
        · have hkeep := @remShortA_tok_keep _ rest htw (by omega) hheadW
          rw [remShort, hsplit, hkeep,
            wordsA_tok htne htc (remShortA_headP hrhead),
            wordsA_tok htne htc hrhead]
          rw [show remShortA false rest = remShort rest from rfl, ihr]
          simp [List.filter_cons, hbig]
        · have hshort := @remShortA_tok_short _ rest htne htw (by omega) hheadW
          rw [remShort, hsplit, hshort, wordsA_tok htne htc hrhead]
          rw [show remShortA false rest = remShort rest from rfl, ihr]
          simp [List.filter_cons, hbig]
      · subst hcs
        have h1 : remShort (' ' :: cs) = ' ' :: remShort cs := by
          rw [remShort, remShortA_sep false wchar_space]
          rfl
        rw [h1, wordsA_sep (p := spc) spc_space, wordsA_sep (p := spc) spc_space]
        exact ih cs (by simpa using hl) (tame_cons htame)

theorem lower_alpha {c : Char} (h : c.isLower = true) : c.isAlpha = true := by
  simp [Char.isAlpha, h]

theorem apoc_not_wchar : wchar apoc = false := by decide

theorem apoc_ne_space : apoc ≠ ' ' := by decide

theorem sw_wf : stopwords.all (fun w =>
    (match w with | [] => false | c :: _ => c.isLower) &&
    w.all (fun c => c.isLower || c == apoc) && lastW w) = true := by decide

theorem sw_ne_nil {w : List Char} (h : w ∈ stopwords) : w ≠ [] := by
  have h2 := List.all_eq_true.mp sw_wf w h
  intro h3
  subst h3
  simp at h2

theorem sw_head_lower {w : List Char} (h : w ∈ stopwords) :
    ∃ c cs, w = c :: cs ∧ c.isLower = true := by
  have h2 := List.all_eq_true.mp sw_wf w h
  cases w with
  | nil => simp at h2
  | cons c cs =>
    simp only [Bool.and_eq_true] at h2
    exact ⟨c, cs, rfl, h2.1.1⟩

theorem sw_chars {w : List Char} (h : w ∈ stopwords) :
    ∀ c ∈ w, c.isLower = true ∨ c = apoc := by
  have h2 := List.all_eq_true.mp sw_wf w h
  simp only [Bool.and_eq_true, List.all_eq_true] at h2
  intro c hc
  have h3 := h2.1.2 c hc
  simpa using h3

theorem sw_lastW {w : List Char} (h : w ∈ stopwords) : lastW w = true := by
  have h2 := List.all_eq_true.mp sw_wf w h
  simp only [Bool.and_eq_true] at h2
  exact h2.2

theorem sw_char_ne_space {c : Char} (h : c.isLower = true ∨ c = apoc) :
    c ≠ ' ' := by
  rcases h with h | h
  · exact alpha_ne_space (lower_alpha h)
  · rw [h]; exact apoc_ne_space

theorem lastW_cons₂ {a c : Char} {cs : List Char} :
    lastW (a :: c :: cs) = lastW (c :: cs) := rfl

theorem bne_true_left {x : Bool} : (true != x) = !x := by cases x <;> rfl

/-- The regex alternative `w` matches with surrounding word boundaries at
an all-letter token `t` followed by a space or the string end exactly
when `w` equals the whole token. -/
theorem sw_alt_at_tok :
    ∀ (w t r : List Char), w ≠ [] →
      (∀ c ∈ t, c.isAlpha = true) → (∀ c ∈ w, c.isLower = true ∨ c = apoc) →
      headP spc r = true → lastW w = true →
      ((startsW w (t ++ r) && (lastW w != headW ((t ++ r).drop w.length))) = true
        ↔ w = t) := by
  intro w
  induction w with
  | nil => intro t r hne _ _ _ _; exact absurd rfl hne
  | cons a w2 ih =>
    intro t r _ hta hwc hr hlast
    have ha := hwc a (List.mem_cons_self _ _)
    cases t with
    | nil =>
      simp only [List.nil_append]
      constructor
      · intro h
        exfalso
        cases r with
        | nil => simp [startsW] at h
        | cons d rs =>
          have hd : d = ' ' := spc_iff.mp hr
          subst hd
          simp only [startsW, Bool.and_eq_true, beq_iff_eq] at h
          exact sw_char_ne_space ha h.1.1
      · intro h; exact absurd h (by simp)
    | cons b t2 =>
      have hb : b.isAlpha = true := hta b (List.mem_cons_self _ _)
      cases hab : a == b with
      | false =>
        constructor
        · intro h
          exfalso
          simp only [List.cons_append, startsW, hab, Bool.false_and,
            Bool.and_eq_true, Bool.false_eq_true] at h
        · intro h
          exfalso
          injection h with h1 _
          rw [h1] at hab
          simp at hab
      | true =>
        have hab2 : a = b := beq_iff_eq.mp hab
        subst hab2
        cases w2 with
        | nil =>
          have hla : wchar a = true := by
            rcases ha with h1 | h1
            · exact alpha_wchar (lower_alpha h1)
            · exfalso
              have h2 := hlast
              rw [h1] at h2
              simp [lastW, apoc_not_wchar] at h2
          simp only [List.cons_append, startsW, beq_self_eq_true, Bool.true_and,
            List.length_cons, List.length_nil, List.drop_succ_cons,
            List.drop_zero, lastW, hla, bne_true_left]
          cases t2 with
          | nil =>
            simp only [List.nil_append]
            constructor
            · intro _; trivial
            · intro _
              cases r with
              | nil => rfl
              | cons d rs =>
                have hd : d = ' ' := spc_iff.mp hr
                subst hd
                simp [headW, wchar_space]
          | cons e t3 =>
            have he : wchar e = true :=
              alpha_wchar (hta e (List.mem_cons_of_mem _ (List.mem_cons_self _ _)))
            simp only [List.cons_append, headW, he]
            constructor
            · intro h; simp at h
            · intro h
              exfalso
              injection h with _ h2
              simp at h2
        | cons a2 w3 =>
          have hih := ih t2 r (by simp)
            (fun c hc => hta c (List.mem_cons_of_mem _ hc))
            (fun c hc => hwc c (List.mem_cons_of_mem _ hc)) hr hlast
          simp only [List.cons_append, startsW, beq_self_eq_true, Bool.true_and,
            List.length_cons, List.drop_succ_cons]
          rw [lastW_cons₂]
          constructor
          · intro h
            rw [hih.mp h]
          · intro h
            injection h with _ h2
            exact hih.mpr h2

theorem isStop_iff {t : List Char} : isStop t = true ↔ t ∈ stopwords := by
  simp [isStop, List.contains_iff_exists_mem_beq, beq_iff_eq]

theorem find?_of_pointwise :
    ∀ (xs : List (List Char)) (pred : List Char → Bool) (t : List Char),
      (∀ w ∈ xs, pred w = (w == t)) →
      xs.find? pred = if t ∈ xs then some t else none := by
  intro xs
  induction xs with
  | nil => intro pred t _; simp
  | cons x xs ih =>
    intro pred t h
    have hx : pred x = (x == t) := h x (List.mem_cons_self _ _)
    cases hxt : x == t with
    | true =>
      have : x = t := beq_iff_eq.mp hxt
      subst this
      rw [List.find?_cons_of_pos _ (by rw [hx, hxt])]
      simp
    | false =>
      have hne : x ≠ t := by
        intro h2; subst h2; simp at hxt
      rw [List.find?_cons_of_neg _ (by rw [hx, hxt]; simp)]
      rw [ih pred t (fun w hw => h w (List.mem_cons_of_mem _ hw))]
      simp only [List.mem_cons]
      by_cases hmem : t ∈ xs
      · simp [hmem]
      · have hnx : ¬(t = x) := fun h2 => hne h2.symm
        simp [hmem, hnx]

theorem swPick_tok {t r : List Char} (htne : t ≠ [])
    (hta : ∀ c ∈ t, c.isAlpha = true) (hr : headP spc r = true) :
    swPick stopwords (t ++ r) = if isStop t then some t else none := by
  rw [swPick, find?_of_pointwise _ _ t]
  · by_cases hmem : t ∈ stopwords
    · simp [hmem, isStop_iff.mpr hmem]
    · have : isStop t = false := by
        cases h : isStop t with
        | false => rfl
        | true => exact absurd (isStop_iff.mp h) hmem
      simp [hmem, this]
  · intro w hw
    have halt := sw_alt_at_tok w t r (sw_ne_nil hw) hta (sw_chars hw) hr
      (sw_lastW hw)
    rw [Bool.eq_iff_iff, halt, beq_iff_eq]

theorem swPick_space {z : List Char} : swPick stopwords (' ' :: z) = none := by
  rw [swPick, List.find?_eq_none]
  intro w hw
  obtain ⟨c, cs, hwc, hcl⟩ := sw_head_lower hw
  subst hwc
  simp only [startsW, Bool.and_eq_true, beq_iff_eq, not_and]
  intro h
  exact absurd h.1 (alpha_ne_space (lower_alpha hcl))

theorem headW_tok {t r : List Char} (htne : t ≠ [])
    (hta : ∀ c ∈ t, c.isAlpha = true) : headW (t ++ r) = true := by
  cases t with
  | nil => exact absurd rfl htne
  | cons c cs => exact alpha_wchar (hta c (List.mem_cons_self _ _))

theorem swMatchLen_tok {t r : List Char} (ws : Bool) (htne : t ≠ [])
    (hta : ∀ c ∈ t, c.isAlpha = true) (hr : headP spc r = true) :
    swMatchLen ws false (t ++ r) =
      if isStop t then
        some (t.length + (if ws then (r.takeWhile wspace).length else 0))
      else none := by
  rw [swMatchLen, if_pos (by rw [headW_tok htne hta]; rfl)]
  rw [swPick_tok htne hta hr]
  cases h : isStop t with
  | false => simp
  | true =>
    simp only [if_true]
    rw [List.drop_left]

/-- Wordness of the character preceding the scan position after the
characters `xs` have been consumed, starting from state `prev`. -/
def endW (prev : Bool) (xs : List Char) : Bool :=
  xs.foldl (fun _ c => wchar c) prev

theorem endW_nil (prev : Bool) : endW prev [] = prev := rfl

theorem endW_cons (prev : Bool) (c : Char) (xs : List Char) :
    endW prev (c :: xs) = endW (wchar c) xs := rfl

theorem endW_all_false : ∀ {xs : List Char} (prev : Bool), xs ≠ [] →
    (∀ c ∈ xs, wchar c = false) → endW prev xs = false := by
  intro xs
  induction xs with
  | nil => intro prev h _; exact absurd rfl h
  | cons c cs ih =>
    intro prev _ h
    rw [endW_cons]
    cases cs with
    | nil => exact h c (List.mem_cons_self _ _)
    | cons d ds =>
      exact ih (wchar c) (by simp) (fun e he => h e (List.mem_cons_of_mem _ he))

theorem endW_all_true : ∀ {xs : List Char}, (∀ c ∈ xs, wchar c = true) →
    endW true xs = true := by
  intro xs
  induction xs with
  | nil => intro _; rfl
  | cons c cs ih =>
    intro h
    rw [endW_cons, h c (List.mem_cons_self _ _)]
    exact ih (fun e he => h e (List.mem_cons_of_mem _ he))

theorem remStopGo_skip (ws : Bool) :
    ∀ (xs : List Char) (prev : Bool) (r : List Char),
      remStopGo ws xs.length prev (xs ++ r) = remStopGo ws 0 (endW prev xs) r := by
  intro xs
  induction xs with
  | nil => intro prev r; rfl
  | cons c cs ih =>
    intro prev r
    simp only [List.length_cons, List.cons_append, remStopGo]
    exact ih (wchar c) r

theorem remStopGo_space (ws : Bool) (prev : Bool) (z : List Char) :
    remStopGo ws 0 prev (' ' :: z) = ' ' :: remStopGo ws 0 false z := by
  have hm : swMatchLen ws prev (' ' :: z) = none := by
    rw [swMatchLen]
    cases prev with
    | false => rw [if_neg (by simp [headW, wchar_space])]
    | true =>
      rw [if_pos (by simp [headW, wchar_space]), swPick_space]
  simp only [remStopGo, hm]
  rw [wchar_space]

theorem remStopGo_copy (ws : Bool) :
    ∀ (u : List Char), (∀ c ∈ u, c.isAlpha = true) →
      ∀ r, remStopGo ws 0 true (u ++ r) = u ++ remStopGo ws 0 true r := by
  intro u
  induction u with
  | nil => intro _ r; rfl
  | cons c cs ih =>
    intro h r
    have hc : wchar c = true := alpha_wchar (h c (List.mem_cons_self _ _))
    have hm : swMatchLen ws true (c :: (cs ++ r)) = none := by
      rw [swMatchLen, if_neg (by simp [headW, hc])]
    simp only [List.cons_append, remStopGo, List.append_eq, hm, hc]
    rw [ih (fun e he => h e (List.mem_cons_of_mem _ he)) r]

theorem remStopGo_prev_sp {r : List Char} (ws : Bool)
    (hr : headP spc r = true) (p q : Bool) :
    remStopGo ws 0 p r = remStopGo ws 0 q r := by
  cases r with
  | nil => rfl
  | cons d z =>
    have hd : d = ' ' := spc_iff.mp hr
    subst hd
    rw [remStopGo_space, remStopGo_space]

theorem remStopGo_subset (ws : Bool) :
    ∀ (l : List Char) (k : Nat) (prev : Bool) (c : Char),
      c ∈ remStopGo ws k prev l → c ∈ l := by
  intro l
  induction l with
  | nil => intro k prev c hc; simp [remStopGo] at hc
  | cons a cs ih =>
    intro k prev c hc
    cases k with
    | succ k2 =>
      simp only [remStopGo] at hc
      exact List.mem_cons_of_mem _ (ih k2 (wchar a) c hc)
    | zero =>
      rcases hm : swMatchLen ws prev (a :: cs) with _ | n
      · rw [remStopGo, hm] at hc
        rcases List.mem_cons.mp hc with heq | hmem
        · subst heq; exact List.mem_cons_self _ _
        · exact List.mem_cons_of_mem _ (ih 0 (wchar a) c hmem)
      · rw [remStopGo, hm] at hc
        exact List.mem_cons_of_mem _ (ih (n - 1) (wchar a) c hc)

theorem endW_append (prev : Bool) (xs ys : List Char) :
    endW prev (xs ++ ys) = endW (endW prev xs) ys := by
  simp [endW, List.foldl_append]

theorem remStopGo_tok_stop {t r : List Char} (ws : Bool) (htne : t ≠ [])
    (hta : ∀ c ∈ t, c.isAlpha = true) (hr : headP spc r = true)
    (hstop : isStop t = true) :
    remStopGo ws 0 false (t ++ r) =
      if ws then remStopGo ws 0 false (r.dropWhile wspace)
      else remStopGo ws 0 false r := by
  obtain ⟨a, t2, rfl⟩ : ∃ a t2, t = a :: t2 := by
    cases t with
    | nil => exact absurd rfl htne
    | cons a t2 => exact ⟨a, t2, rfl⟩
  have hm := swMatchLen_tok (t := a :: t2) (r := r) ws (by simp) hta hr
  rw [hstop, if_pos rfl] at hm
  simp only [List.cons_append] at hm
  have ha : wchar a = true := alpha_wchar (hta a (List.mem_cons_self _ _))
  have ht2 : ∀ c ∈ t2, wchar c = true :=
    fun c hc => alpha_wchar (hta c (List.mem_cons_of_mem _ hc))
  cases ws with
  | false =>
    simp only [Bool.false_eq_true, if_false]
    simp only [List.cons_append, remStopGo, List.append_eq]
    rw [hm]
    show remStopGo false (((a :: t2).length +
        if (false : Bool) = true then (r.takeWhile wspace).length else 0) - 1)
      (wchar a) (t2 ++ r) = _
    rw [show (((a :: t2).length +
        if (false : Bool) = true then (r.takeWhile wspace).length else 0) - 1)
        = t2.length by simp]
    rw [remStopGo_skip false t2 (wchar a) r]
    rw [ha, endW_all_true ht2]
    exact remStopGo_prev_sp false hr true false
  | true =>
    simp only [if_true]
    have hrsplit : r = r.takeWhile wspace ++ r.dropWhile wspace :=
      (List.takeWhile_append_dropWhile _ _).symm
    simp only [List.cons_append, remStopGo, List.append_eq]
    rw [hm]
    show remStopGo true (((a :: t2).length +
        if (true : Bool) = true then (r.takeWhile wspace).length else 0) - 1)
      (wchar a) (t2 ++ r) = _
    rw [show (((a :: t2).length +
        if (true : Bool) = true then (r.takeWhile wspace).length else 0) - 1)
        = (t2 ++ r.takeWhile wspace).length by simp]
    rw [show (t2 ++ r : List Char)
        = (t2 ++ r.takeWhile wspace) ++ r.dropWhile wspace by
      rw [List.append_assoc, ← hrsplit]]
    rw [remStopGo_skip true (t2 ++ r.takeWhile wspace) (wchar a) (r.dropWhile wspace)]
    cases hrc : r with
    | nil => simp [remStopGo]
    | cons d z =>
      have hd : d = ' ' := spc_iff.mp (by rw [hrc] at hr; exact hr)
      subst hd
      have hspne : r.takeWhile wspace ≠ [] := by
        rw [hrc]
        simp [List.takeWhile_cons, wspace_space]
      have hspall : ∀ c ∈ r.takeWhile wspace, wchar c = false := by
        intro c hc
        exact wspace_not_wchar (List.mem_takeWhile_imp hc)
      rw [← hrc, endW_append, endW_all_false _ hspne hspall]

theorem remStopGo_tok_copy {t r : List Char} (ws : Bool) (htne : t ≠ [])
    (hta : ∀ c ∈ t, c.isAlpha = true) (hr : headP spc r = true)
    (hstop : isStop t = false) :
    remStopGo ws 0 false (t ++ r) = t ++ remStopGo ws 0 false r := by
  obtain ⟨a, t2, rfl⟩ : ∃ a t2, t = a :: t2 := by
    cases t with
    | nil => exact absurd rfl htne
    | cons a t2 => exact ⟨a, t2, rfl⟩
  have hm := swMatchLen_tok (t := a :: t2) (r := r) ws (by simp) hta hr
  rw [hstop] at hm
  simp only [Bool.false_eq_true, if_false] at hm
  have ha : wchar a = true := alpha_wchar (hta a (List.mem_cons_self _ _))
  simp only [List.cons_append, remStopGo, List.append_eq]
  simp only [List.cons_append] at hm
  rw [hm, ha]
  rw [remStopGo_copy ws t2 (fun c hc => hta c (List.mem_cons_of_mem _ hc)) r]
  rw [remStopGo_prev_sp ws hr true false]

theorem remStopGo_spaces (ws : Bool) :
    ∀ (sp X : List Char), (∀ c ∈ sp, c = ' ') →
      remStopGo ws 0 false (sp ++ X) = sp ++ remStopGo ws 0 false X := by
  intro sp
  induction sp with
  | nil => intro X _; rfl
  | cons c cs ih =>
    intro X h
    have hc : c = ' ' := h c (List.mem_cons_self _ _)
    subst hc
    rw [List.cons_append, remStopGo_space]
    rw [ih X (fun d hd => h d (List.mem_cons_of_mem _ hd))]
    rfl

theorem wordsA_sp_lead {p : Char → Bool} :
    ∀ (sp Y : List Char), (∀ c ∈ sp, p c = true) →
      wordsA p (sp ++ Y) = wordsA p Y := by
  intro sp
  induction sp with
  | nil => intro Y _; rfl
  | cons c cs ih =>
    intro Y h
    rw [List.cons_append, wordsA_sep (h c (List.mem_cons_self _ _))]
    exact ih Y (fun d hd => h d (List.mem_cons_of_mem _ hd))

theorem remStopGo_headP {rest : List Char} (ws : Bool)
    (h : headP spc rest = true) :
    headP spc (remStopGo ws 0 false rest) = true := by
  cases rest with
  | nil => rfl
  | cons d z =>
    have hd : d = ' ' := spc_iff.mp h
    subst hd
    rw [remStopGo_space]
    rfl

theorem remStop_words (ws : Bool) :
    ∀ (n : Nat) (l : List Char), l.length ≤ n → Tame l →
      wordsA spc (remStopGo ws 0 false l) =
        (wordsA spc l).filter (fun t => !isStop t) := by
  intro n
  induction n with
  | zero =>
    intro l hl _
    have : l = [] := List.length_eq_zero.mp (Nat.le_zero.mp hl)
    subst this
    rfl
  | succ n ih =>
    intro l hl htame
    cases l with
    | nil => rfl
    | cons c cs =>
      rcases htame c (List.mem_cons_self _ _) with hca | hcs
      · obtain ⟨t, rest, hsplit, htne, htalpha, htc, hrhead, htameR, hlen,
          hheadW, hwords⟩ := tame_decomp htame hca
        have hrl : rest.length ≤ n := by
          have := hlen
          simp only [List.length_cons] at this
          omega
        have ihr := ih rest hrl htameR
        rw [hsplit, wordsA_tok htne htc hrhead]
        cases hstop : isStop t with
        | true =>
          rw [remStopGo_tok_stop ws htne htalpha hrhead hstop]
          have hdrop : wordsA spc (remStopGo ws 0 false (rest.dropWhile wspace))
              = wordsA spc (remStopGo ws 0 false rest) := by
            have hre : rest = rest.takeWhile wspace ++ rest.dropWhile wspace :=
              (List.takeWhile_append_dropWhile _ _).symm
            have hsp : ∀ c ∈ rest.takeWhile wspace, c = ' ' := by
              intro c hc
              have hw := List.mem_takeWhile_imp hc
              rcases htameR c (by rw [hre]; exact List.mem_append_left _ hc) with h1 | h1
              · exact absurd hw (by simp [alpha_not_wspace h1])
              · exact h1
            conv_rhs => rw [hre]
            rw [remStopGo_spaces ws _ _ hsp]
            rw [wordsA_sp_lead _ _ (fun c hc => by
              rw [hsp c hc]; exact spc_space)]
          cases ws with
          | true =>
            rw [if_pos rfl, hdrop, ihr]
            simp [List.filter_cons, hstop]
          | false =>
            rw [if_neg (by simp), ihr]
            simp [List.filter_cons, hstop]
        | false =>
          rw [remStopGo_tok_copy ws htne htalpha hrhead hstop]
          rw [wordsA_tok htne htc (remStopGo_headP ws hrhead)]
          rw [ihr]
          simp [List.filter_cons, hstop]
      · subst hcs
        rw [remStopGo_space, wordsA_sep (p := spc) spc_space,
          wordsA_sep (p := spc) spc_space]
        exact ih cs (by simpa using hl) (tame_cons htame)

theorem remNumsAB_subset :
    ∀ (l : List Char),
      (∀ (prev : Bool) (c : Char), c ∈ remNumsA prev l → c ∈ l) ∧
      (∀ (run : List Char) (c : Char), c ∈ remNumsB run l → c ∈ run ∨ c ∈ l) := by
  intro l
  induction l with
  | nil =>
    constructor
    · intro prev c hc; simp [remNumsA] at hc
    · intro run c hc; simp [remNumsB] at hc
  | cons a cs ih =>
    constructor
    · intro prev c hc
      by_cases hg : (a.isDigit && !prev) = true
      · simp only [remNumsA, hg, if_true] at hc
        rcases ih.2 [a] c hc with h1 | h1
        · simp only [List.mem_singleton] at h1
          subst h1
          exact List.mem_cons_self _ _
        · exact List.mem_cons_of_mem _ h1
      · simp only [remNumsA, hg, Bool.false_eq_true, if_false,
          List.mem_cons] at hc
        rcases hc with heq | hmem
        · subst heq; exact List.mem_cons_self _ _
        · exact List.mem_cons_of_mem _ (ih.1 _ c hmem)
    · intro run c hc
      cases hd : a.isDigit with
      | true =>
        simp only [remNumsB, hd, if_true] at hc
        rcases ih.2 (run ++ [a]) c hc with h1 | h1
        · rcases List.mem_append.mp h1 with h2 | h2
          · exact Or.inl h2
          · simp only [List.mem_singleton] at h2
            subst h2
            exact Or.inr (List.mem_cons_self _ _)
        · exact Or.inr (List.mem_cons_of_mem _ h1)
      | false =>
        cases hw : wchar a with
        | true =>
          simp only [remNumsB, hd, hw, Bool.false_eq_true, if_false, if_true,
            List.mem_append, List.mem_cons] at hc
          rcases hc with h1 | h1 | h1
          · exact Or.inl h1
          · subst h1; exact Or.inr (List.mem_cons_self _ _)
          · exact Or.inr (List.mem_cons_of_mem _ (ih.1 _ c h1))
        | false =>
          simp only [remNumsB, hd, hw, Bool.false_eq_true, if_false,
            List.mem_cons] at hc
          rcases hc with heq | hmem
          · subst heq; exact Or.inr (List.mem_cons_self _ _)
          · exact Or.inr (List.mem_cons_of_mem _ (ih.1 _ c hmem))

theorem remNums_subset {l : List Char} {c : Char} (hc : c ∈ remNums l) :
    c ∈ l := (remNumsAB_subset l).1 false c hc

theorem cleanMid_tame (l : List Char) : Tame (cleanMid l) := by
  intro c hc
  rcases collapse_mem hc with ⟨h1, h2⟩ | h1
  · left
    have halnum : c.isAlphanum = true := by simpa using h2
    rcases List.mem_map.mp h1 with ⟨d, hd, hde⟩
    by_cases hde2 : (d == 'é') = true
    · rw [← hde]
      simp [hde2]
    · have hcd : c = d := by rw [← hde]; simp [hde2]
      subst hcd
      have h3 := List.mem_filter.mp hd
      exact alnum_nondigit_alpha halnum (by simpa using h3.2)
  · right; exact h1

theorem clean_eq_stages (l : List Char) :
    clean l = collapseRuns spc (strip (remStop (remShort (cleanMid l)))) := rfl

theorem clean_characterization (l : List Char) :
    clean l = unwords ((wordsA spc (cleanMid l)).filter
      (fun t => !isStop t && decide (2 < t.length))) := by
  rw [clean_eq_stages]
  have h6 : Tame (cleanMid l) := cleanMid_tame l
  have h7 : Tame (remShort (cleanMid l)) :=
    fun c hc => h6 c (remShort_subset hc)
  have h8 : Tame (remStop (remShort (cleanMid l))) :=
    fun c hc => h7 c (remStopGo_subset true _ 0 false c hc)
  rw [tame_strip_collapse _ _ le_rfl h8]
  rw [show remStop (remShort (cleanMid l))
      = remStopGo true 0 false (remShort (cleanMid l)) from rfl]
  rw [remStop_words true _ _ le_rfl h7]
  rw [remShort_words _ _ le_rfl h6]
  rw [List.filter_filter]

theorem unwords_mem :
    ∀ {ts : List (List Char)} {c : Char}, c ∈ unwords ts →
      (∃ t ∈ ts, c ∈ t) ∨ c = ' ' := by
  intro ts
  induction ts with
  | nil => intro c hc; simp [unwords] at hc
  | cons t ts ih =>
    intro c hc
    cases ts with
    | nil =>
      exact Or.inl ⟨t, List.mem_cons_self _ _, hc⟩
    | cons t2 ts2 =>
      rw [unwords_cons₂ (by simp)] at hc
      rcases List.mem_append.mp hc with h1 | h1
      · exact Or.inl ⟨t, List.mem_cons_self _ _, h1⟩
      · rcases List.mem_cons.mp h1 with heq | hmem
        · exact Or.inr heq
        · rcases ih hmem with ⟨u, hu, hcu⟩ | h2
          · exact Or.inl ⟨u, List.mem_cons_of_mem _ hu, hcu⟩
          · exact Or.inr h2

theorem clean_tame (l : List Char) : Tame (clean l) := by
  intro c hc
  rw [clean_characterization] at hc
  rcases unwords_mem hc with ⟨t, ht, hct⟩ | h1
  · have ht2 := (List.mem_filter.mp ht).1
    obtain ⟨_, h3⟩ := wordsA_shape ht2
    have h4 := (h3 c hct).1
    rcases cleanMid_tame l c h4 with h5 | h5
    · exact Or.inl h5
    · exfalso
      have h6 := (h3 c hct).2
      rw [h5] at h6
      exact absurd h6 (by simp [spc])
  · exact Or.inr h1

theorem dropWhile_subset {p : Char → Bool} :
    ∀ {l : List Char} {c : Char}, c ∈ l.dropWhile p → c ∈ l := by
  intro l
  induction l with
  | nil => intro c hc; simp at hc
  | cons a cs ih =>
    intro c hc
    cases ha : p a with
    | true =>
      rw [List.dropWhile_cons, if_pos ha] at hc
      exact List.mem_cons_of_mem _ (ih hc)
    | false =>
      rw [List.dropWhile_cons, if_neg (by simp [ha])] at hc
      exact hc

theorem strip_subset {l : List Char} {c : Char} (hc : c ∈ strip l) : c ∈ l := by
  rw [strip] at hc
  have h1 := List.mem_reverse.mp hc
  have h2 := dropWhile_subset h1
  have h3 := List.mem_reverse.mp h2
  exact dropWhile_subset h3

/-- Every character of the cleaner output already occurs in its input,
or is a space (inserted by the run-collapsing rules), or is the letter e
(introduced by the é-folding rule).  In particular the cleaner never
invents letters. -/
theorem clean_subset (l : List Char) :
    ∀ c ∈ clean l, c ∈ l ∨ c = ' ' ∨ c = 'e' := by
  intro c hc
  rw [clean_eq_stages] at hc
  rcases collapse_mem hc with ⟨h1, _⟩ | h1
  · have h2 := strip_subset h1
    have h3 := remStopGo_subset true _ 0 false c h2
    have h4 := remShort_subset h3
    rcases collapse_mem h4 with ⟨h5, _⟩ | h5
    · rcases List.mem_map.mp h5 with ⟨d, hd, hde⟩
      by_cases hde2 : (d == 'é') = true
      · right; right
        rw [← hde]
        simp [hde2]
      · have hcd : c = d := by rw [← hde]; simp [hde2]
        subst hcd
        have h6 := (List.mem_filter.mp hd).1
        have h7 := remNums_subset h6
        rcases collapse_mem h7 with ⟨h8, _⟩ | h8
        · rcases List.mem_map.mp h8 with ⟨d2, hd2, hde3⟩
          rw [toSp] at hde3
          by_cases hw : wchar d2 = true
          · rw [if_pos hw] at hde3
            subst hde3
            exact Or.inl hd2
          · rw [if_neg hw] at hde3
            exact Or.inr (Or.inl hde3.symm)
        · exact Or.inr (Or.inl h8)
    · exact Or.inr (Or.inl h5)
  · exact Or.inr (Or.inl h1)

theorem map_id_of {f : Char → Char} :
    ∀ {l : List Char}, (∀ c ∈ l, f c = c) → l.map f = l := by
  intro l
  induction l with
  | nil => intro _; rfl
  | cons c cs ih =>
    intro h
    rw [List.map_cons, h c (List.mem_cons_self _ _),
      ih (fun d hd => h d (List.mem_cons_of_mem _ hd))]

theorem noTwo_append_left {p : Char → Bool} :
    ∀ {t r : List Char}, (∀ c ∈ t, p c = false) → NoTwo p r →
      NoTwo p (t ++ r) := by
  intro t
  induction t with
  | nil => intro r _ hr; exact hr
  | cons a t2 ih =>
    intro r ht hr
    have ha : p a = false := ht a (List.mem_cons_self _ _)
    have h2 : NoTwo p (t2 ++ r) :=
      ih (fun c hc => ht c (List.mem_cons_of_mem _ hc)) hr
    cases hx : t2 ++ r with
    | nil =>
      rw [List.cons_append, hx]
      exact trivial
    | cons b bs =>
      rw [List.cons_append, hx]
      exact ⟨fun h3 => by simp [ha] at h3, by rw [← hx]; exact h2⟩

theorem unwords_noTwo {p : Char → Bool} :
    ∀ {ts : List (List Char)},
      (∀ t ∈ ts, t ≠ [] ∧ ∀ c ∈ t, p c = false) → NoTwo p (unwords ts) := by
  intro ts
  induction ts with
  | nil => exact fun _ => trivial
  | cons t ts2 ih =>
    intro h
    have ht := h t (List.mem_cons_self _ _)
    cases ts2 with
    | nil =>
      show NoTwo p (unwords [t])
      have : unwords [t] = t ++ [] := by simp [unwords]
      rw [this]
      exact noTwo_append_left ht.2 trivial
    | cons t2 ts3 =>
      rw [unwords_cons₂ (by simp)]
      apply noTwo_append_left ht.2
      have ht2 := h t2 (List.mem_cons_of_mem _ (List.mem_cons_self _ _))
      obtain ⟨b, u, hbu⟩ : ∃ b u, t2 = b :: u := by
        cases h2 : t2 with
        | nil => exact absurd h2 ht2.1
        | cons b u => exact ⟨b, u, rfl⟩
      have hihr : NoTwo p (unwords (t2 :: ts3)) :=
        ih (fun w hw => h w (List.mem_cons_of_mem _ hw))
      have hhead : ∃ X, unwords (t2 :: ts3) = b :: X := by
        cases ts3 with
        | nil => exact ⟨u, by rw [hbu]; rfl⟩
        | cons t3 ts4 =>
          refine ⟨u ++ ' ' :: unwords (t3 :: ts4), ?_⟩
          rw [unwords_cons₂ (by simp), hbu]
          rfl
      obtain ⟨X, hX⟩ := hhead
      rw [hX]
      refine ⟨?_, by rw [← hX]; exact hihr⟩
      rintro ⟨_, h4⟩
      have hb : p b = false := ht2.2 b (by rw [hbu]; exact List.mem_cons_self _ _)
      simp [hb] at h4

theorem e_acute_not_alpha : ('é').isAlpha = false := by decide

theorem cleanMid_fixed {ts : List (List Char)}
    (h : ∀ t ∈ ts, t ≠ [] ∧ ∀ c ∈ t, c.isAlpha = true) :
    cleanMid (unwords ts) = unwords ts := by
  have hu : ∀ c ∈ unwords ts, c.isAlpha = true ∨ c = ' ' := by
    intro c hc
    rcases unwords_mem hc with ⟨t, ht, hct⟩ | h1
    · exact Or.inl ((h t ht).2 c hct)
    · exact Or.inr h1
  have h1 : (unwords ts).map toSp = unwords ts := by
    apply map_id_of
    intro c hc
    rcases hu c hc with h2 | h2
    · rw [toSp, if_pos (alpha_wchar h2)]
    · rw [h2]; rfl
  have h2 : collapseRuns wspace (unwords ts) = unwords ts := by
    apply collapse_id
    · apply unwords_noTwo
      intro t ht
      exact ⟨(h t ht).1, fun c hc => alpha_not_wspace ((h t ht).2 c hc)⟩
    · intro c hc hw
      rcases hu c hc with h3 | h3
      · exact absurd hw (by simp [alpha_not_wspace h3])
      · exact h3
  have h3 : remNums (unwords ts) = unwords ts := by
    apply remNumsA_id
    intro c hc
    rcases hu c hc with h4 | h4
    · exact alpha_not_digit h4
    · rw [h4]; decide
  have h4 : (unwords ts).filter (fun c => !c.isDigit) = unwords ts := by
    apply List.filter_eq_self.mpr
    intro c hc
    rcases hu c hc with h5 | h5
    · simp [alpha_not_digit h5]
    · rw [h5]; decide
  have h5 : (unwords ts).map (fun c => if c == 'é' then 'e' else c) = unwords ts := by
    apply map_id_of
    intro c hc
    have hne : (c == 'é') = false := by
      cases he : c == 'é' with
      | false => rfl
      | true =>
        exfalso
        have hce : c = 'é' := beq_iff_eq.mp he
        rcases hu c hc with h6 | h6
        · rw [hce, e_acute_not_alpha] at h6
          exact absurd h6 (by simp)
        · rw [hce] at h6
          exact absurd h6 (by decide)
    simp [hne]
  have h6 : collapseRuns (fun c => !c.isAlphanum) (unwords ts) = unwords ts := by
    apply collapse_id
    · apply unwords_noTwo
      intro t ht
      refine ⟨(h t ht).1, fun c hc => ?_⟩
      have := (h t ht).2 c hc
      simp [Char.isAlphanum, this]
    · intro c hc hna
      rcases hu c hc with h7 | h7
      · exfalso
        have : c.isAlphanum = true := by simp [Char.isAlphanum, h7]
        rw [this] at hna
        exact absurd hna (by simp)
      · exact h7
  rw [cleanMid, h1, h2, h3, h4, h5, h6]

theorem clean_tokens_props {l : List Char} :
    ∀ t ∈ (wordsA spc (cleanMid l)).filter
        (fun t => !isStop t && decide (2 < t.length)),
      t ≠ [] ∧ (∀ c ∈ t, c.isAlpha = true) ∧ 2 < t.length ∧ isStop t = false := by
  intro t ht
  have h1 := List.mem_filter.mp ht
  obtain ⟨hne, hsh⟩ := wordsA_shape h1.1
  have halpha : ∀ c ∈ t, c.isAlpha = true := by
    intro c hc
    rcases cleanMid_tame l c (hsh c hc).1 with h2 | h2
    · exact h2
    · exfalso
      have h3 := (hsh c hc).2
      rw [h2] at h3
      exact absurd h3 (by simp [spc])
  have h2 := h1.2
  simp only [Bool.and_eq_true, Bool.not_eq_true', decide_eq_true_eq] at h2
  exact ⟨hne, halpha, h2.2, h2.1⟩

theorem wordsA_spc_clean (l : List Char) :
    wordsA spc (clean l) = (wordsA spc (cleanMid l)).filter
      (fun t => !isStop t && decide (2 < t.length)) := by
  rw [clean_characterization]
  apply wordsA_unwords (p := spc) rfl
  intro t ht
  obtain ⟨hne, halpha, _, _⟩ := clean_tokens_props t ht
  refine ⟨hne, fun c hc => ?_⟩
  cases h : spc c with
  | false => rfl
  | true => exact absurd (spc_iff.mp h) (alpha_ne_space (halpha c hc))

/-- C1, as the specification states it, fails on uppercase input: the
cleaner is case-preserving and its stopword list is lowercase, so the
string ABC passes through unchanged and contains characters outside
the lowercase letters and the space. -/
theorem C1_counterexample :
    ¬ ((∀ c ∈ clean ['A', 'B', 'C'], c.isDigit = false) ∧
       (∀ c ∈ clean ['A', 'B', 'C'], c.isLower = true ∨ c = ' ') ∧
       (∀ t ∈ wordsA wspace (clean ['A', 'B', 'C']), 3 ≤ t.length)) := by
  decide

/-- C1 (amended: restricted to inputs with no uppercase letters, which
is what the loader feeds the cleaner after lowercasing): the cleaner
output has no digit characters, no characters outside the lowercase
letters and the space, and no whitespace-delimited token shorter than
three characters. -/
theorem C1_clean_output_shape (s : List Char)
    (hnoupper : ∀ c ∈ s, c.isUpper = false) :
    (∀ c ∈ clean s, c.isDigit = false) ∧
    (∀ c ∈ clean s, c.isLower = true ∨ c = ' ') ∧
    (∀ t ∈ wordsA wspace (clean s), 3 ≤ t.length) := by
  refine ⟨?_, ?_, ?_⟩
  · intro c hc
    rcases clean_tame s c hc with h1 | h1
    · exact alpha_not_digit h1
    · rw [h1]; decide
  · intro c hc
    rcases clean_tame s c hc with h1 | h1
    · left
      have hup : c.isUpper = false := by
        rcases clean_subset s c hc with h2 | h2 | h2
        · exact hnoupper c h2
        · rw [h2]; decide
        · rw [h2]; decide
      simpa [Char.isAlpha, hup] using h1
    · exact Or.inr h1
  · intro t ht
    rw [wordsA_congr (q := spc)
      (fun c hc => tame_wspace_iff (clean_tame s) hc)] at ht
    rw [wordsA_spc_clean] at ht
    obtain ⟨_, _, hlen, _⟩ := clean_tokens_props t ht
    omega

theorem C1_clean_output_shape_witness :
    (∀ c ∈ ['h', 'i', ',', ' ', 't', 'h', 'e', ' ', 'p', 'l', 'a', 'n',
      't', 's', ' ', '4', '2'], c.isUpper = false) ∧
    ((∀ c ∈ clean ['h', 'i', ',', ' ', 't', 'h', 'e', ' ', 'p', 'l', 'a',
        'n', 't', 's', ' ', '4', '2'], c.isDigit = false) ∧
     (∀ c ∈ clean ['h', 'i', ',', ' ', 't', 'h', 'e', ' ', 'p', 'l', 'a',
        'n', 't', 's', ' ', '4', '2'], c.isLower = true ∨ c = ' ') ∧
     (∀ t ∈ wordsA wspace (clean ['h', 'i', ',', ' ', 't', 'h', 'e', ' ',
        'p', 'l', 'a', 'n', 't', 's', ' ', '4', '2']), 3 ≤ t.length)) :=
  ⟨by decide, C1_clean_output_shape _ (by decide)⟩

/-- C2: the cleaner is idempotent: cleaning an already-cleaned string
changes nothing, for every input string. -/
theorem C2_clean_idempotent (s : List Char) : clean (clean s) = clean s := by
  have hcl := clean_characterization s
  have hts := clean_tokens_props (l := s)
  set ts := (wordsA spc (cleanMid s)).filter
    (fun t => !isStop t && decide (2 < t.length)) with hTS
  have hfix : cleanMid (unwords ts) = unwords ts := by
    apply cleanMid_fixed
    intro t ht
    obtain ⟨h1, h2, _, _⟩ := hts t ht
    exact ⟨h1, h2⟩
  rw [hcl]
  rw [clean_characterization (unwords ts), hfix]
  rw [wordsA_unwords (p := spc) rfl ts (by
    intro t ht
    obtain ⟨h1, h2, _, _⟩ := hts t ht
    refine ⟨h1, fun c hc => ?_⟩
    cases h : spc c with
    | false => rfl
    | true => exact absurd (spc_iff.mp h) (alpha_ne_space (h2 c hc)))]
  congr 1
  apply List.filter_eq_self.mpr
  intro t ht
  obtain ⟨_, _, h3, h4⟩ := hts t ht
  simp [h3, h4]

theorem wordsAB_map {f : Char → Char} {p q : Char → Bool}
    (hq : ∀ c, q (f c) = p c) (hid : ∀ c, p c = false → f c = c) :
    ∀ (l : List Char),
      wordsA q (l.map f) = wordsA p l ∧
      ∀ acc, wordsB q acc (l.map f) = wordsB p acc l := by
  intro l
  induction l with
  | nil => exact ⟨rfl, fun _ => rfl⟩
  | cons c cs ih =>
    constructor
    · show wordsA q (f c :: cs.map f) = wordsA p (c :: cs)
      cases hc : p c with
      | true => simp [wordsA, hq c, hc, ih.1]
      | false =>
        simp only [wordsA, hq c, hc, Bool.false_eq_true, if_false]
        rw [hid c hc]
        exact ih.2 [c]
    · intro acc
      show wordsB q acc (f c :: cs.map f) = wordsB p acc (c :: cs)
      cases hc : p c with
      | true => simp [wordsB, hq c, hc, ih.1]
      | false =>
        simp only [wordsB, hq c, hc, Bool.false_eq_true, if_false]
        rw [hid c hc]
        exact ih.2 (acc ++ [c])

theorem wordsA_map {f : Char → Char} {p q : Char → Bool}
    (hq : ∀ c, q (f c) = p c) (hid : ∀ c, p c = false → f c = c)
    (l : List Char) : wordsA q (l.map f) = wordsA p l :=
  (wordsAB_map hq hid l).1

theorem wordsAB_collapse {p : Char → Bool} :
    ∀ (l : List Char), (∀ c ∈ l, p c = spc c) →
      wordsA spc (collapseRuns p l) = wordsA spc l ∧
      ∀ acc, wordsB spc acc (collapseRuns p l) = wordsB spc acc l := by
  intro l
  induction l with
  | nil => exact fun _ => ⟨rfl, fun _ => rfl⟩
  | cons a cs ih =>
    intro h
    have ha : p a = spc a := h a (List.mem_cons_self _ _)
    cases cs with
    | nil =>
      cases hsa : spc a with
      | true =>
        have haa : a = ' ' := spc_iff.mp hsa
        subst haa
        constructor
        · simp [collapseRuns, ha, hsa, wordsA, spc_space]
        · intro acc
          simp [collapseRuns, ha, hsa, wordsB, spc_space]
      | false =>
        constructor
        · simp [collapseRuns, ha, hsa]
        · intro acc
          simp [collapseRuns, ha, hsa]
    | cons d ds =>
      have hd : p d = spc d := h d (List.mem_cons_of_mem _ (List.mem_cons_self _ _))
      have ihds := ih (fun c hc => h c (List.mem_cons_of_mem _ hc))
      cases hsa : spc a with
      | true =>
        have haa : a = ' ' := spc_iff.mp hsa
        subst haa
        cases hsd : spc d with
        | true =>
          constructor
          · rw [show collapseRuns p (' ' :: d :: ds) = collapseRuns p (d :: ds) by
              simp [collapseRuns, ha, hd, hsa, hsd]]
            rw [ihds.1, wordsA_sep (p := spc) spc_space]
          · intro acc
            rw [show collapseRuns p (' ' :: d :: ds) = collapseRuns p (d :: ds) by
              simp [collapseRuns, ha, hd, hsa, hsd]]
            rw [ihds.2 acc]
            have hdd : d = ' ' := spc_iff.mp hsd
            subst hdd
            simp [wordsB, wordsA, spc_space]
        | false =>
          constructor
          · rw [show collapseRuns p (' ' :: d :: ds)
                = ' ' :: collapseRuns p (d :: ds) by
              simp [collapseRuns, ha, hd, hsa, hsd]]
            rw [wordsA_sep (p := spc) spc_space, wordsA_sep (p := spc) spc_space,
              ihds.1]
          · intro acc
            rw [show collapseRuns p (' ' :: d :: ds)
                = ' ' :: collapseRuns p (d :: ds) by
              simp [collapseRuns, ha, hd, hsa, hsd]]
            simp only [wordsB, spc_space, if_true]
            rw [ihds.1]
      | false =>
        constructor
        · rw [show collapseRuns p (a :: d :: ds) = a :: collapseRuns p (d :: ds) by
            simp [collapseRuns, ha, hsa]]
          simp only [wordsA, hsa, Bool.false_eq_true, if_false]
          exact ihds.2 [a]
        · intro acc
          rw [show collapseRuns p (a :: d :: ds) = a :: collapseRuns p (d :: ds) by
            simp [collapseRuns, ha, hsa]]
          simp only [wordsB, hsa, Bool.false_eq_true, if_false]
          exact ihds.2 (acc ++ [a])

theorem wordsA_collapse {p : Char → Bool} {l : List Char}
    (h : ∀ c ∈ l, p c = spc c) :
    wordsA spc (collapseRuns p l) = wordsA spc l :=
  (wordsAB_collapse l h).1

/-- Refining a tokenization: when every `p`-separator is also a
`q`-separator, the `q`-tokens of a string are the `q`-tokens of its
`p`-tokens, in order. -/
theorem wordsA_refine {p q : Char → Bool} (hpq : ∀ c, p c = true → q c = true) :
    ∀ (n : Nat) (l : List Char), l.length ≤ n →
      wordsA q l = (wordsA p l).flatMap (fun w => wordsA q w) := by
  intro n
  induction n with
  | zero =>
    intro l hl
    have : l = [] := List.length_eq_zero.mp (Nat.le_zero.mp hl)
    subst this
    rfl
  | succ n ih =>
    intro l hl
    cases l with
    | nil => rfl
    | cons c cs =>
      cases hc : p c with
      | true =>
        rw [wordsA_sep hc, wordsA_sep (hpq c hc)]
        exact ih cs (by simpa using hl)
      | false =>
        set t : List Char := c :: cs.takeWhile (fun d => !p d) with hT
        set rest : List Char := cs.dropWhile (fun d => !p d) with hR
        have hsplit : c :: cs = t ++ rest := by
          rw [hT, hR]
          simp [List.takeWhile_append_dropWhile]
        have htne : t ≠ [] := by rw [hT]; simp
        have htc : ∀ d ∈ t, p d = false := by
          intro d hd
          rw [hT] at hd
          rcases List.mem_cons.mp hd with rfl | hd2
          · exact hc
          · simpa using List.mem_takeWhile_imp hd2
        have hrhead : headP p rest = true := by
          rw [hR]
          cases h : cs.dropWhile (fun d => !p d) with
          | nil => rfl
          | cons d ds => simpa [headP] using dropWhile_head h
        have hrheadq : headP q rest = true := by
          cases h2 : rest with
          | nil => rfl
          | cons d ds =>
            rw [h2] at hrhead
            exact hpq d hrhead
        have hrl : rest.length ≤ n := by
          have h1 : (c :: cs).length = t.length + rest.length := by
            rw [hsplit, List.length_append]
          have h2 : 1 ≤ t.length := by rw [hT]; simp
          simp only [List.length_cons] at h1 hl
          omega
        rw [hsplit, wordsA_tok htne htc hrhead,
          wordsA_append (p := q) hrheadq]
        rw [List.flatMap_cons, ih rest hrl]

/-- Every character of a string lies in one of its tokens or is a
separator. -/
theorem wordsA_cover {p : Char → Bool} :
    ∀ (n : Nat) (l : List Char), l.length ≤ n → ∀ c ∈ l,
      (∃ t ∈ wordsA p l, c ∈ t) ∨ p c = true := by
  intro n
  induction n with
  | zero =>
    intro l hl c hc
    have : l = [] := List.length_eq_zero.mp (Nat.le_zero.mp hl)
    subst this
    simp at hc
  | succ n ih =>
    intro l hl c hc
    cases l with
    | nil => simp at hc
    | cons a cs =>
      cases hpa : p a with
      | true =>
        rcases List.mem_cons.mp hc with rfl | hmem
        · exact Or.inr hpa
        · rcases ih cs (by simpa using hl) c hmem with ⟨t, ht, hct⟩ | h2
          · exact Or.inl ⟨t, by rw [wordsA_sep hpa]; exact ht, hct⟩
          · exact Or.inr h2
      | false =>
        set t : List Char := a :: cs.takeWhile (fun d => !p d) with hT
        set rest : List Char := cs.dropWhile (fun d => !p d) with hR
        have hsplit : a :: cs = t ++ rest := by
          rw [hT, hR]
          simp [List.takeWhile_append_dropWhile]
        have htne : t ≠ [] := by rw [hT]; simp
        have htc : ∀ d ∈ t, p d = false := by
          intro d hd
          rw [hT] at hd
          rcases List.mem_cons.mp hd with rfl | hd2
          · exact hpa
          · simpa using List.mem_takeWhile_imp hd2
        have hrhead : headP p rest = true := by
          rw [hR]
          cases h : cs.dropWhile (fun d => !p d) with
          | nil => rfl
          | cons d ds => simpa [headP] using dropWhile_head h
        have hwt : wordsA p (a :: cs) = t :: wordsA p rest := by
          rw [hsplit]
          exact wordsA_tok htne htc hrhead
        have hcs : c ∈ t ++ rest := by rw [← hsplit]; exact hc
        rcases List.mem_append.mp hcs with h3 | h3
        · exact Or.inl ⟨t, by rw [hwt]; exact List.mem_cons_self _ _, h3⟩
        · have hrl : rest.length ≤ n := by
            have h1 : (a :: cs).length = t.length + rest.length := by
              rw [hsplit, List.length_append]
            have h2 : 1 ≤ t.length := by rw [hT]; simp
            simp only [List.length_cons] at h1 hl
            omega
          rcases ih rest hrl c h3 with ⟨u, hu, hcu⟩ | h4
          · exact Or.inl ⟨u, by rw [hwt]; exact List.mem_cons_of_mem _ hu, hcu⟩
          · exact Or.inr h4

theorem sw_parts_fail : stopwords.all (fun w =>
    (wordsA (fun c => !wchar c) w).all
      (fun t => !(!isStop t && decide (2 < t.length)))) = true := by decide

/-- C4: an input consisting only of stopwords of the fixed list,
separated by whitespace, cleans to the empty string: the apostrophe of
a contracted stopword is blanked by rule 1 and every resulting fragment
is either shorter than three characters (removed by rule 7) or itself a
stopword (removed by rule 8). -/
theorem C4_stopwords_clean_empty (s : List Char)
    (h : ∀ t ∈ wordsA wspace s, isStop t = true) : clean s = [] := by
  rw [clean_characterization]
  have hchars : ∀ c ∈ s, (c.isLower = true ∨ c = apoc) ∨ wspace c = true := by
    intro c hc
    rcases wordsA_cover (p := wspace) s.length s le_rfl c hc with ⟨t, ht, hct⟩ | h2
    · exact Or.inl (sw_chars (isStop_iff.mp (h t ht)) c hct)
    · exact Or.inr h2
  have h1 : wordsA spc (s.map toSp) = wordsA (fun c => !wchar c) s := by
    apply wordsA_map
    · intro c
      rw [toSp]
      cases hw : wchar c with
      | true =>
        have hsc : spc c = false := by
          cases h2 : spc c with
          | false => rfl
          | true => exact absurd (spc_iff.mp h2) (wchar_ne_space hw)
        simp [hsc]
      | false =>
        simp [spc_space]
    · intro c hc
      have hw : wchar c = true := by simpa using hc
      rw [toSp, if_pos hw]
  have htame1 : Tame (s.map toSp) := by
    intro c hc
    rcases List.mem_map.mp hc with ⟨d, hd, hde⟩
    rcases hchars d hd with hl | hw
    · rcases hl with hl | hl
      · left
        rw [← hde, toSp, if_pos (alpha_wchar (lower_alpha hl))]
        exact lower_alpha hl
      · right
        rw [← hde, toSp, hl, if_neg (by simp [apoc_not_wchar])]
    · right
      rw [← hde, toSp, if_neg (by simp [wspace_not_wchar hw])]
  have htame2 : Tame (collapseRuns wspace (s.map toSp)) := by
    intro c hc
    rcases collapse_mem hc with ⟨h2, _⟩ | h2
    · exact htame1 c h2
    · exact Or.inr h2
  have hid3 : remNums (collapseRuns wspace (s.map toSp))
      = collapseRuns wspace (s.map toSp) := by
    apply remNumsA_id
    intro c hc
    rcases htame2 c hc with h2 | h2
    · exact alpha_not_digit h2
    · rw [h2]; decide
  have hid4 : (collapseRuns wspace (s.map toSp)).filter (fun c => !c.isDigit)
      = collapseRuns wspace (s.map toSp) := by
    apply List.filter_eq_self.mpr
    intro c hc
    rcases htame2 c hc with h2 | h2
    · simp [alpha_not_digit h2]
    · rw [h2]; decide
  have hid5 : (collapseRuns wspace (s.map toSp)).map
        (fun c => if c == 'é' then 'e' else c)
      = collapseRuns wspace (s.map toSp) := by
    apply map_id_of
    intro c hc
    have hne : (c == 'é') = false := by
      cases he : c == 'é' with
      | false => rfl
      | true =>
        exfalso
        have hce : c = 'é' := beq_iff_eq.mp he
        rcases htame2 c hc with h2 | h2
        · rw [hce, e_acute_not_alpha] at h2
          exact absurd h2 (by simp)
        · rw [hce] at h2
          exact absurd h2 (by decide)
    simp [hne]
  have hMwords : wordsA spc (cleanMid s) = wordsA (fun c => !wchar c) s := by
    rw [cleanMid, hid3, hid4, hid5]
    rw [wordsA_collapse (p := fun c => !c.isAlphanum) (by
      intro c hc
      rcases htame2 c hc with h2 | h2
      · have ha : c.isAlphanum = true := by simp [Char.isAlphanum, h2]
        have hsc : spc c = false := by
          cases h3 : spc c with
          | false => rfl
          | true => exact absurd (spc_iff.mp h3) (alpha_ne_space h2)
        simp [ha, hsc]
      · rw [h2]
        decide)]
    rw [wordsA_collapse (p := wspace) (by
      intro c hc
      exact tame_wspace_iff htame1 hc)]
    exact h1
  rw [hMwords]
  rw [wordsA_refine (p := wspace) (q := fun c => !wchar c)
    (by intro c hc; simp [wspace_not_wchar hc]) s.length s le_rfl]
  have hfail : ∀ t ∈ (wordsA wspace s).flatMap
      (fun w => wordsA (fun c => !wchar c) w),
      (!isStop t && decide (2 < t.length)) = false := by
    intro t ht
    rcases List.mem_flatMap.mp ht with ⟨w, hw, htw⟩
    have hsw : w ∈ stopwords := isStop_iff.mp (h w hw)
    have hall : (!(!isStop t && decide (2 < t.length))) = true :=
      List.all_eq_true.mp (List.all_eq_true.mp sw_parts_fail w hsw) t htw
    cases hx : (!isStop t && decide (2 < t.length)) with
    | false => rfl
    | true =>
      rw [hx] at hall
      exact absurd hall (by decide)
  have hnil : List.filter (fun t => !isStop t && decide (2 < t.length))
      ((wordsA wspace s).flatMap (fun w => wordsA (fun c => !wchar c) w)) = [] := by
    rw [List.filter_eq_nil]
    intro t ht
    rw [hfail t ht]
    simp
  rw [hnil]
  rfl

theorem C4_stopwords_clean_empty_witness :
    (∀ t ∈ wordsA wspace
        ['t', 'h', 'e', ' ', 'i', 't', 's', 'e', 'l', 'f'], isStop t = true) ∧
    clean ['t', 'h', 'e', ' ', 'i', 't', 's', 'e', 'l', 'f'] = [] :=
  ⟨by decide, C4_stopwords_clean_empty _ (by decide)⟩

theorem collapse_congr {p q : Char → Bool} :
    ∀ {l : List Char}, (∀ c ∈ l, p c = q c) →
      collapseRuns p l = collapseRuns q l := by
  intro l
  induction l with
  | nil => intro _; rfl
  | cons a cs ih =>
    intro h
    have ha : p a = q a := h a (List.mem_cons_self _ _)
    cases cs with
    | nil =>
      show collapseRuns p [a] = collapseRuns q [a]
      simp only [collapseRuns, ha]
    | cons d ds =>
      have hd : p d = q d := h d (List.mem_cons_of_mem _ (List.mem_cons_self _ _))
      have ih2 := ih (fun c hc => h c (List.mem_cons_of_mem _ hc))
      show collapseRuns p (a :: d :: ds) = collapseRuns q (a :: d :: ds)
      simp only [collapseRuns, ha, hd, ih2]

theorem wchar_not_wspace {c : Char} (h : wchar c = true) : wspace c = false := by
  cases hw : wspace c with
  | false => rfl
  | true => exact absurd (wspace_not_wchar hw) (by simp [h])

/-- Rules 1 and 2 of the specification agree with steps 1 and 2 of the
code after whitespace collapsing: replacing every maximal non-word run
by one space and then collapsing whitespace gives the same string as
replacing every single non-word character by a space and then
collapsing. -/
theorem spec_rule12_eq (l : List Char) :
    collapseRuns wspace (collapseRuns (fun c => !wchar c) l)
      = collapseRuns wspace (l.map toSp) := by
  have hR : collapseRuns wspace (l.map toSp)
      = collapseRuns (fun c => !wchar c) l := by
    apply collapse_map
    · intro c
      rw [toSp]
      cases hw : wchar c with
      | true => simp [wchar_not_wspace hw]
      | false => simp [wspace_space]
    · intro c hc
      have hw : wchar c = true := by simpa using hc
      rw [toSp, if_pos hw]
  rw [hR]
  apply collapse_id
  · apply noTwo_mono (p := fun c => !wchar c)
    · intro c hc
      simp [wspace_not_wchar hc]
    · exact collapse_noTwo _
  · intro c hc hw
    rcases collapse_mem hc with ⟨_, h2⟩ | h2
    · exfalso
      have h3 : wchar c = true := by simpa using h2
      rw [wchar_not_wspace h3] at hw
      exact absurd hw (by simp)
    · exact h2

theorem specClean_eq_stages (l : List Char) :
    specClean l = collapseRuns wspace (strip (remStopPlain (remShort
      (collapseRuns (fun c => !c.isAlphanum)
        (((remNums (collapseRuns wspace
            (collapseRuns (fun c => !wchar c) l))).filter
          (fun c => !c.isDigit)).map
            (fun c => if c == 'é' then 'e' else c)))))) := rfl

/-- C3: the cleaner equals the sequential composition of the nine rules
of specification section 4.1, applied in the listed order, on every
input string.  The two places where the wording of the specification differs
from the code — rule 1 replaces runs rather than single characters, and
rule 8 does not consume the whitespace after a removed stopword — are
erased by the later whitespace normalization. -/
theorem C3_specClean_eq_clean (l : List Char) : specClean l = clean l := by
  rw [specClean_eq_stages, spec_rule12_eq]
  rw [show collapseRuns (fun c => !c.isAlphanum)
      (((remNums (collapseRuns wspace (l.map toSp))).filter
        (fun c => !c.isDigit)).map (fun c => if c == 'é' then 'e' else c))
      = cleanMid l from rfl]
  have h6 : Tame (cleanMid l) := cleanMid_tame l
  have h7 : Tame (remShort (cleanMid l)) :=
    fun c hc => h6 c (remShort_subset hc)
  have h8 : Tame (remStopPlain (remShort (cleanMid l))) :=
    fun c hc => h7 c (remStopGo_subset false _ 0 false c hc)
  rw [collapse_congr (p := wspace) (q := spc) (by
    intro c hc
    exact tame_wspace_iff h8 (strip_subset hc))]
  rw [tame_strip_collapse _ _ le_rfl h8]
  rw [show remStopPlain (remShort (cleanMid l))
      = remStopGo false 0 false (remShort (cleanMid l)) from rfl]
  rw [remStop_words false _ _ le_rfl h7]
  rw [clean_eq_stages]
  have h8t : Tame (remStop (remShort (cleanMid l))) :=
    fun c hc => h7 c (remStopGo_subset true _ 0 false c hc)
  rw [tame_strip_collapse _ _ le_rfl h8t]
  rw [show remStop (remShort (cleanMid l))
      = remStopGo true 0 false (remShort (cleanMid l)) from rfl]
  rw [remStop_words true _ _ le_rfl h7]

/-- The loader-loop body on the success path (the spaCy call does not
overflow): lowercase, clean, lemmatize each token, re-tokenize and keep
the noun chunks the chunker selects. -/
def processDocRun (lem : List Char → List Char)
    (chunker : List (List Char) → List (List (List Char)))
    (raw : List Char) : List Char :=
  nounText (chunker (nlpTokens (unwords ((nlpTokens (clean (lowerStr raw))).map lem))))

theorem processDoc_run (lem : List Char → List Char)
    (chunker : List (List Char) → List (List (List Char)))
    (raw : List Char) (h : (clean (lowerStr raw)).length ≤ 60000000) :
    processDoc lem chunker raw = some (processDocRun lem chunker raw) := by
  rw [processDoc, lemmaspacy, nlpRun, if_neg (by omega)]
  rfl

theorem runLoader_spec (proc : List Char → List Char) :
    ∀ (entries : List (List Char × List Char)) (st : List (List Char) × List (List Char)),
      entries.foldl (fun st e => (st.1 ++ [e.1], st.2 ++ [proc e.2])) st
        = (st.1 ++ entries.map Prod.fst, st.2 ++ entries.map (fun e => proc e.2)) := by
  intro entries
  induction entries with
  | nil => intro st; simp
  | cons e es ih =>
    intro st
    rw [List.foldl_cons, ih]
    simp

theorem runLoader_eq (proc : List Char → List Char)
    (entries : List (List Char × List Char)) :
    runLoader proc entries
      = (entries.map Prod.fst, entries.map (fun e => proc e.2)) := by
  rw [runLoader, runLoader_spec]
  simp

/-- C5: the writer creates exactly one output file per input file, under
the identical filename: the output (filename, contents) pairs carry
exactly the input filenames, in order and multiplicity, so with the
distinct names of a directory listing this is a 1:1 mapping with no
extra and no missing files. -/
theorem C5_one_output_per_input (proc : List Char → List Char)
    (entries : List (List Char × List Char)) :
    (runWriter (runLoader proc entries)).map Prod.fst = entries.map Prod.fst ∧
    (runWriter (runLoader proc entries)).length = entries.length := by
  rw [runLoader_eq, runWriter]
  constructor
  · apply List.map_fst_zip
    simp
  · simp

/-- C9: after every loader iteration (that is, for every prefix of the
directory listing, each prefix being a possible `entries`) the two
accumulator lists have equal length, and the writer pairs the i-th
processed document with the i-th filename: its output is exactly the
input list with the contents of each document processed in place, so no
document is written under the filename of another document. -/
theorem C9_loader_writer_alignment (proc : List Char → List Char)
    (entries : List (List Char × List Char)) :
    (runLoader proc entries).1.length = (runLoader proc entries).2.length ∧
    runWriter (runLoader proc entries)
      = entries.map (fun e => (e.1, proc e.2)) := by
  rw [runLoader_eq, runWriter]
  constructor
  · simp
  · rw [show (entries.map Prod.fst) = entries.map (fun e => e.1) from rfl]
    rw [List.zip_map']

/-- C10: the loader applies no filename or extension filter: for every
directory listing, every entry (a .txt file or not) is read and run
through the pipeline, so the processed names are exactly all the entry
names and every entry contributes a processed document. -/
theorem C10_loader_processes_every_entry (proc : List Char → List Char)
    (entries : List (List Char × List Char)) :
    (runLoader proc entries).1 = entries.map Prod.fst ∧
    (runLoader proc entries).2 = entries.map (fun e => proc e.2) ∧
    ∀ e ∈ entries, e.1 ∈ (runLoader proc entries).1 := by
  rw [runLoader_eq]
  refine ⟨rfl, rfl, ?_⟩
  intro e he
  exact List.mem_map.mpr ⟨e, he, rfl⟩

/-- C6: a document whose text exceeds the configured maximum model
length (`nlp.max_length = 60000000` inside `lemmaspacy`) makes the spaCy
call raise, which is fatal for the document: the lemmatizer yields no
result at all rather than a truncated one. -/
theorem C6_lemmatizer_overflow_fatal (lem : List Char → List Char)
    (text : List Char) (h : 60000000 < text.length) :
    lemmaspacy lem text = none := by
  rw [lemmaspacy, nlpRun, if_pos h]
  rfl

theorem C6_lemmatizer_overflow_fatal_witness :
    60000000 < (List.replicate 60000001 'a').length ∧
    lemmaspacy (fun t => t) (List.replicate 60000001 'a') = none :=
  ⟨by rw [List.length_replicate]; omega, C6_lemmatizer_overflow_fatal _ _
    (by rw [List.length_replicate]; omega)⟩

/-- C7: every stage accepts the empty string: cleaning it yields the
empty string, the lemmatizer succeeds with the empty string, noun
extraction yields the empty string, and for an empty input file the
writer creates an output file under the same name whose contents are
empty. -/
theorem C7_empty_input (lem : List Char → List Char)
    (chunker : List (List Char) → List (List (List Char)))
    (name : List Char) (hch : chunker [] = []) :
    clean [] = [] ∧
    lemmaspacy lem [] = some [] ∧
    processDoc lem chunker [] = some [] ∧
    runWriter (runLoader (processDocRun lem chunker) [(name, [])])
      = [(name, [])] := by
  refine ⟨rfl, rfl, ?_, ?_⟩
  · rw [processDoc]
    show ((nlpRun 60000000 (clean (lowerStr []))).map
      (fun toks => unwords (toks.map lem))).map
        (fun lstr => nounText (chunker (nlpTokens lstr))) = some []
    show (some (nounText (chunker (nlpTokens (unwords
      ((nlpTokens (clean (lowerStr []))).map lem))))) = some [])
    rw [show nlpTokens (unwords ((nlpTokens (clean (lowerStr []))).map lem))
        = [] from rfl, hch]
    rfl
  · rw [runLoader_eq, runWriter]
    show (name, processDocRun lem chunker []) :: [] = [(name, [])]
    rw [show processDocRun lem chunker []
        = nounText (chunker []) by rfl, hch]
    rfl

theorem C7_empty_input_witness :
    ((fun _ : List (List Char) => ([] : List (List (List Char)))) [] = []) ∧
    (clean [] = [] ∧
     lemmaspacy (fun t => t) [] = some [] ∧
     processDoc (fun t => t) (fun _ => []) [] = some [] ∧
     runWriter (runLoader (processDocRun (fun t => t) (fun _ => []))
       [(['d', 'o', 'c', '1'], [])]) = [(['d', 'o', 'c', '1'], [])]) :=
  ⟨rfl, C7_empty_input _ _ _ rfl⟩

theorem nounText_flatten (spans : List (List (List Char))) :
    ∀ init, spans.foldl (fun acc sp => acc ++ ' ' :: unwords sp) init
      = init ++ (spans.map (fun sp => ' ' :: unwords sp)).flatten := by
  induction spans with
  | nil => intro init; simp
  | cons sp rest ih =>
    intro init
    rw [List.foldl_cons, ih]
    simp

theorem nounText_words (spans : List (List (List Char)))
    (hwf : ∀ t ∈ spans.flatten, t ≠ [] ∧ ∀ c ∈ t, wspace c = false) :
    wordsA wspace (nounText spans) = spans.flatten := by
  rw [nounText, nounText_flatten, List.nil_append]
  induction spans with
  | nil => rfl
  | cons sp rest ih =>
    rw [List.map_cons, List.flatten_cons]
    have hjun : headP wspace ((rest.map (fun sp => ' ' :: unwords sp)).flatten)
        = true := by
      cases rest with
      | nil => rfl
      | cons sp2 rest2 => exact wspace_space
    rw [wordsA_append (p := wspace) hjun]
    rw [wordsA_sep (p := wspace) wspace_space]
    have hsp : ∀ t ∈ sp, t ≠ [] ∧ ∀ c ∈ t, wspace c = false := by
      intro t ht
      exact hwf t (by
        rw [List.flatten_cons]
        exact List.mem_append_left _ ht)
    rw [wordsA_unwords (p := wspace) wspace_space sp hsp]
    rw [ih (by
      intro t ht
      exact hwf t (by
        rw [List.flatten_cons]
        exact List.mem_append_right _ ht))]
    rw [List.flatten_cons]

/-- C8: noun extraction only removes tokens: when the chunker spans
are (in order, without overlap) a sublist of the lemmatized document
tokens, the output string of the noun extractor has at most as many
whitespace-separated tokens as the output string of the lemmatizer. -/
theorem C8_noun_tokens_le (ltoks : List (List Char))
    (spans : List (List (List Char)))
    (hwf : ∀ t ∈ ltoks, t ≠ [] ∧ ∀ c ∈ t, wspace c = false)
    (hspan : spans.flatten.Sublist ltoks) :
    (wordsA wspace (nounText spans)).length
      ≤ (wordsA wspace (unwords ltoks)).length := by
  rw [wordsA_unwords (p := wspace) wspace_space ltoks hwf]
  rw [nounText_words spans (fun t ht => hwf t (hspan.subset ht))]
  exact hspan.length_le

theorem C8_noun_tokens_le_witness :
    (∀ t ∈ [['a', 'b'], ['c', 'd'], ['e', 'f', 'g']],
      t ≠ [] ∧ ∀ c ∈ t, wspace c = false) ∧
    ([[['a', 'b']], [['e', 'f', 'g']]].flatten).Sublist
      [['a', 'b'], ['c', 'd'], ['e', 'f', 'g']] ∧
    (wordsA wspace (nounText [[['a', 'b']], [['e', 'f', 'g']]])).length
      ≤ (wordsA wspace (unwords [['a', 'b'], ['c', 'd'], ['e', 'f', 'g']])).length :=
  ⟨by decide, by decide, C8_noun_tokens_le _ _ (by decide) (by decide)⟩
